import Mathlib

/-!
Daisy workflow steps `DeleteResources` and `WaitForInstancesStopped`.

A verification development for `daisy/workflow/step_delete_resources.go` and
`daisy/workflow/step_wait_for_instances_stopped.go`.

* Part 1 embeds the two `validate` methods as state-passing functions over the
  two deletion registries (`diskNamesToDelete`, `instanceNamesToDelete`).
* Part 2 embeds the two `run` methods as goroutine programs executed by an
  interleaving step function (one scheduler choice per step).
-/

namespace Daisy

/-! ## Part 1: validation -/

/-- Modelled from the spec: the type of `diskNamesToDelete` and
`instanceNamesToDelete` is declared outside the two source files.  The spec
describes it as an add-if-absent set of names; it is kept here as the list of
names claimed so far, in claim order. -/
abbrev NameSet := List String

/-- The package-level helpers used by `validate` that are declared outside the
two source files: the existence predicates, and the text of the error that
`add` returns for a name that is already present (it may depend on the set
contents and on the name). -/
structure Env where
  diskExists : String → Bool
  instanceExists : String → Bool
  addError : NameSet → String → String

/-- Modelled from the spec: `nameSet.add` is declared outside the two source
files.  It is add-if-absent: it fails on a name already present and leaves the
set alone, and otherwise records the name. -/
def NameSet.add (env : Env) (s : NameSet) (name : String) : Except String NameSet :=
  if name ∈ s then .error (env.addError s name) else .ok (s ++ [name])

/-- The two process-wide deletion registries. -/
structure Registry where
  diskNamesToDelete : NameSet
  instanceNamesToDelete : NameSet
  deriving DecidableEq, Repr

/-- The step type `DeleteResources` (source line 23). -/
structure DeleteResources where
  Instances : List String
  Disks : List String
  Images : List String
  deriving DecidableEq, Repr

/-- The step type `WaitForInstancesStopped` (a slice of instance names). -/
abbrev WaitForInstancesStopped := List String

/-- The disk loop of `DeleteResources.validate` (source lines 29-36): returns
the error (`none` for "fell out of the loop") and the disk registry afterwards. -/
def validateDisks (env : Env) : List String → NameSet → Option String × NameSet
  | [], reg => (none, reg)
  | disk :: rest, reg =>
    if !env.diskExists disk then
      (some ("cannot delete disk. Disk not found: " ++ disk), reg)
    else
      match NameSet.add env reg disk with
      | .error err => (some ("error scheduling disk for deletion: " ++ err), reg)
      | .ok reg1 => validateDisks env rest reg1

/-- The instance loop of `DeleteResources.validate` (source lines 39-46). -/
def validateInstances (env : Env) : List String → NameSet → Option String × NameSet
  | [], reg => (none, reg)
  | i :: rest, reg =>
    if !env.instanceExists i then
      (some ("cannot delete instance. Instance not found: " ++ i), reg)
    else
      match NameSet.add env reg i with
      | .error err => (some ("error scheduling instance for deletion: " ++ err), reg)
      | .ok reg1 => validateInstances env rest reg1

/-- The method `DeleteResources.validate` (source lines 27-49): the returned
error (`none` stands for `nil`) and the registries after the call. -/
def DeleteResources.validate (env : Env) (d : DeleteResources) (reg : Registry) :
    Option String × Registry :=
  match validateDisks env d.Disks reg.diskNamesToDelete with
  | (some err, disks) => (some err, { reg with diskNamesToDelete := disks })
  | (none, disks) =>
    match validateInstances env d.Instances reg.instanceNamesToDelete with
    | (some err, insts) =>
      (some err, { diskNamesToDelete := disks, instanceNamesToDelete := insts })
    | (none, insts) =>
      (none, { diskNamesToDelete := disks, instanceNamesToDelete := insts })

/-- The loop of `WaitForInstancesStopped.validate` (source lines 54-58). -/
def waitValidateLoop (env : Env) : List String → Option String
  | [] => none
  | i :: rest =>
    if !env.instanceExists i then
      some ("cannot wait for instance stopped. Instance not found: " ++ i)
    else waitValidateLoop env rest

/-- The method `WaitForInstancesStopped.validate` (source lines 52-60).  It
never touches the registries; the registry is threaded through so that this can
be stated. -/
def WaitForInstancesStopped.validate (env : Env) (s : WaitForInstancesStopped)
    (reg : Registry) : Option String × Registry :=
  (waitValidateLoop env s, reg)

/-- The `DuplicateSchedule` errors of `DeleteResources.validate`: the wrapped
error of a failed `add` on the disk or on the instance registry. -/
def DuplicateSchedule (env : Env) (e : String) : Prop :=
  ∃ (s : NameSet) (name : String),
    e = "error scheduling disk for deletion: " ++ env.addError s name ∨
    e = "error scheduling instance for deletion: " ++ env.addError s name

/-- The `ResourceNotFound` error of `DeleteResources.validate` for a disk. -/
def diskNotFound (name : String) : String :=
  "cannot delete disk. Disk not found: " ++ name

/-- The `ResourceNotFound` error of `DeleteResources.validate` for an instance. -/
def instanceNotFound (name : String) : String :=
  "cannot delete instance. Instance not found: " ++ name

/-- The `ResourceNotFound` error of `WaitForInstancesStopped.validate`. -/
def waitInstanceNotFound (name : String) : String :=
  "cannot wait for instance stopped. Instance not found: " ++ name

/-- A sample environment: disks `d1`, `d2` and instances `a`, `b` exist. -/
def sampleEnv : Env where
  diskExists := fun n => n == "d1" || n == "d2"
  instanceExists := fun n => n == "a" || n == "b"
  addError := fun _ n => n ++ " already in set"

/-- The common shape of the two loops of `DeleteResources.validate`, used to
prove facts about both at once. -/
def checkLoop (env : Env) (ex : String → Bool) (nf dup : String) :
    List String → NameSet → Option String × NameSet
  | [], reg => (none, reg)
  | x :: rest, reg =>
    if !ex x then (some (nf ++ x), reg)
    else
      match NameSet.add env reg x with
      | .error err => (some (dup ++ err), reg)
      | .ok reg1 => checkLoop env ex nf dup rest reg1

/-! ## Part 2: run

Both `run` methods have the same shape: for each phase, `main` starts one
goroutine per resource (`wg.Add(1); go func ...`), then a goroutine that does
`wg.Wait(); e <- nil`, then blocks in a `select` on the unbuffered channel `e`
and on `w.Ctx.Done()`.  `DeleteResources.run` has two such phases (instances and
images, then disks, on a fresh channel), `WaitForInstancesStopped.run` has one.

A run method is embedded as the list of its phases (`Program`), and executed by
`step`, which performs one atomic action of one goroutine, chosen by the
scheduler.  All interleavings are obtained by varying the list of choices.
Goroutines keep running after `main` has returned, as they do in Go. -/

/-- A call to the compute client made by a goroutine of a `run` method. -/
inductive Call
  | deleteInstance (name : String)
  | deleteImage (name : String)
  | deleteDisk (name : String)
  | WaitForInstanceStopped (project zone name : String)
  deriving DecidableEq, Repr

/-- The workflow a step runs in.  `namer` and the client calls are declared
outside the two source files: `namer` is taken as a function, and each client
call as the function giving the error (`none` stands for `nil`) that the
goroutine started for the `k`-th entry of its loop gets back. -/
structure Workflow where
  Name : String
  suffix : String
  Project : String
  Zone : String
  namer : String → String → String → String
  deleteInstance : Nat → String → Option String
  deleteImage : Nat → String → Option String
  deleteDisk : Nat → String → Option String
  WaitForInstanceStopped : Nat → String → String → String → Option String

/-- The body of one goroutine started in a loop of `run`: the client call it
makes and the error that call returns. -/
structure Task where
  call : Call
  result : Option String
  deriving DecidableEq, Repr

/-- The goroutines of one phase, in the order in which `main` starts them; a
`run` method is the list of its phases. -/
abbrev Program := List (List Task)

/-- One `for _, x := range xs` loop of `run`: the task started for each entry,
`k` being the position of the entry. -/
def goAll (mk : Nat → String → Task) : Nat → List String → List Task
  | _, [] => []
  | k, x :: xs => mk k x :: goAll mk (k + 1) xs

/-- The goroutine body of source line 59:
`w.deleteInstance(namer(i, w.Name, w.suffix))`. -/
def deleteInstanceTask (w : Workflow) (k : Nat) (i : String) : Task :=
  ⟨.deleteInstance (w.namer i w.Name w.suffix),
    w.deleteInstance k (w.namer i w.Name w.suffix)⟩

/-- The goroutine body of source line 69: `w.deleteImage(i)`. -/
def deleteImageTask (w : Workflow) (k : Nat) (i : String) : Task :=
  ⟨.deleteImage i, w.deleteImage k i⟩

/-- The goroutine body of source line 95:
`w.deleteDisk(namer(d, w.Name, w.suffix))`. -/
def deleteDiskTask (w : Workflow) (k : Nat) (x : String) : Task :=
  ⟨.deleteDisk (w.namer x w.Name w.suffix), w.deleteDisk k (w.namer x w.Name w.suffix)⟩

/-- The goroutine body of line 33 of `step_wait_for_instances_stopped.go`:
`w.ComputeClient.WaitForInstanceStopped(w.Project, w.Zone, namer(name, w.Name, w.suffix))`. -/
def waitTask (w : Workflow) (k : Nat) (name : String) : Task :=
  ⟨.WaitForInstanceStopped w.Project w.Zone (w.namer name w.Name w.suffix),
    w.WaitForInstanceStopped k w.Project w.Zone (w.namer name w.Name w.suffix)⟩

/-- The method `DeleteResources.run` (source lines 51-112).  First phase: the
loops over `d.Instances` (lines 55-63) and `d.Images` (lines 65-73), joined by
the select of lines 80-87.  Second phase, on the channel made at line 90: the
loop over `d.Disks` (lines 91-99), joined by the select of lines 106-111. -/
def DeleteResources.run (d : DeleteResources) (w : Workflow) : Program :=
  [ goAll (deleteInstanceTask w) 0 d.Instances ++ goAll (deleteImageTask w) 0 d.Images,
    goAll (deleteDiskTask w) 0 d.Disks ]

/-- The method `WaitForInstancesStopped.run` (lines 25-50): one phase, the loop
over the instances (lines 29-37) joined by the select of lines 44-49. -/
def WaitForInstancesStopped.run (s : WaitForInstancesStopped) (w : Workflow) : Program :=
  [ goAll (waitTask w) 0 s ]

/-- Where a goroutine started in a loop is:
`spawned` before the client call, `calling` while it is in flight, `returned`
once it has returned, `sending ch err` while blocked in `e <- err` on the
channel `ch` that `e` named when the send began, `sent` once `main` has
received it, `finished` after the deferred `wg.Done()`. -/
inductive WorkerSt
  | spawned
  | calling
  | returned
  | sending (ch : Nat) (err : String)
  | sent
  | finished
  deriving DecidableEq, Repr

/-- Where the goroutine `go func() { wg.Wait(); e <- nil }()` is: `waiting` in
`wg.Wait()`, `woke` once it has returned, `sending ch` while blocked in
`e <- nil` on channel `ch`, `done` once `main` has received the `nil`. -/
inductive WaiterSt
  | waiting
  | woke
  | sending (ch : Nat)
  | done
  deriving DecidableEq, Repr

/-- A goroutine started by `run`. -/
inductive Goroutine
  | worker (t : Task) (st : WorkerSt)
  | waiter (st : WaiterSt)
  deriving DecidableEq, Repr

/-- Where `main` (the goroutine executing `run`) is within the current phase:
about to start the goroutine for entry `j` of the phase (`spawn j`), about to
start the `wg.Wait()` goroutine, arrived at the select and about to look for a
communication that can proceed (`select`), blocked in the select because none
could (`parked`), or returned with `r`. -/
inductive Pc
  | spawn (j : Nat)
  | spawnWaiter
  | select
  | parked
  | returned (r : Option String)
  deriving DecidableEq, Repr

/-- What an observer of the compute client sees: a call being made, and a call
returning with its error. -/
inductive Event
  | invoke (c : Call)
  | ret (c : Call) (r : Option String)
  deriving DecidableEq, Repr

/-- The state of one execution of `run`.  `phase` numbers the current phase and
also names the channel currently bound to the variable `e` (each phase makes its
own); `wg` is the counter of the wait group; `gors` are the goroutines started
so far, in start order; `cancelled` tells whether `w.Ctx.Done()` is closed;
`log` is the history of client calls. -/
structure State where
  phase : Nat
  pc : Pc
  wg : Int
  gors : List Goroutine
  cancelled : Bool
  log : List Event
  deriving DecidableEq, Repr

/-- A scheduler choice: let `main` take its next step, let goroutine `i` take
its next step, let the select, on arrival, receive from goroutine `i` that is
already blocked in its send, let the select, on arrival, take the
`w.Ctx.Done()` case, or let the environment cancel the workflow. -/
inductive Action
  | main
  | go (i : Nat)
  | recv (i : Nat)
  | ctxDone
  | cancel
  deriving DecidableEq, Repr

/-- The state in which `run` is called. -/
def State.init : State :=
  { phase := 0, pc := .spawn 0, wg := 0, gors := [], cancelled := false, log := [] }

/-- What `main` does with the value `v` received from `e` in the select: a
non-nil error is returned at once (lines 82-84 and 108); a `nil` makes `main`
fall through to the next phase if there is one (line 90) and return `nil` from
the last select otherwise (line 108). -/
def received (prog : Program) (s : State) (v : Option String) : State :=
  match v with
  | some err => { s with pc := .returned (some err) }
  | none =>
    if s.phase + 1 < prog.length then { s with phase := s.phase + 1, pc := .spawn 0 }
    else { s with pc := .returned none }

/-- Whether a goroutine is blocked in a send on channel `ch`. -/
def Goroutine.sendingOn (ch : Nat) : Goroutine → Bool
  | .worker _ (.sending c _) => decide (c = ch)
  | .waiter (.sending c) => decide (c = ch)
  | _ => false

/-- One atomic step of an execution of `run`; `none` when the chosen action is
not enabled in `s`.

The select follows the Go rule.  On arrival, if some communication can proceed
(a goroutine is blocked in a send on `e`, or `w.Ctx.Done()` is closed), one of
those that can is chosen, in no particular order (`recv i`, `ctxDone`);
otherwise `main` blocks (`parked`).  While `main` is blocked the first
communication that becomes possible completes at once: a send on `e` hands its
value over, and cancellation makes the `w.Ctx.Done()` case fire. -/
def step (prog : Program) (s : State) : Action → Option State
  | .main =>
    match s.pc with
    | .spawn j =>
      match (prog.getD s.phase [])[j]? with
      | some t =>
        -- `wg.Add(1); go func(...) {...}(x)`
        some { s with wg := s.wg + 1, gors := s.gors ++ [.worker t .spawned],
                      pc := .spawn (j + 1) }
      | none => some { s with pc := .spawnWaiter }
    | .spawnWaiter =>
      -- `go func() { wg.Wait(); e <- nil }()`, then on to the select
      some { s with gors := s.gors ++ [.waiter .waiting], pc := .select }
    | .select =>
      -- nothing can proceed: block
      if s.gors.any (Goroutine.sendingOn s.phase) || s.cancelled then none
      else some { s with pc := .parked }
    | _ => none
  | .go i =>
    match s.gors[i]? with
    | some (.worker t .spawned) =>
      some { s with gors := s.gors.set i (.worker t .calling),
                    log := s.log ++ [.invoke t.call] }
    | some (.worker t .calling) =>
      some { s with gors := s.gors.set i (.worker t .returned),
                    log := s.log ++ [.ret t.call t.result] }
    | some (.worker t .returned) =>
      match t.result with
      | none =>
        -- `err == nil`: the function returns and the deferred `wg.Done()` runs
        some { s with gors := s.gors.set i (.worker t .finished), wg := s.wg - 1 }
      | some err =>
        -- `e <- err`: `e` is read now
        match s.pc with
        | .parked =>
          -- `main` is blocked in the select on `e`: the error is handed over
          some (received prog { s with gors := s.gors.set i (.worker t .sent) } (some err))
        | _ => some { s with gors := s.gors.set i (.worker t (.sending s.phase err)) }
    | some (.worker t .sent) =>
      some { s with gors := s.gors.set i (.worker t .finished), wg := s.wg - 1 }
    | some (.waiter .waiting) =>
      -- `wg.Wait()` returns only when the counter is zero
      if s.wg = 0 then some { s with gors := s.gors.set i (.waiter .woke) } else none
    | some (.waiter .woke) =>
      -- `e <- nil`: `e` is read now
      match s.pc with
      | .parked =>
        some (received prog { s with gors := s.gors.set i (.waiter .done) } none)
      | _ => some { s with gors := s.gors.set i (.waiter (.sending s.phase)) }
    | _ => none
  | .recv i =>
    match s.pc with
    | .select =>
      match s.gors[i]? with
      | some (.worker t (.sending ch err)) =>
        if ch = s.phase then
          some (received prog { s with gors := s.gors.set i (.worker t .sent) } (some err))
        else none
      | some (.waiter (.sending ch)) =>
        if ch = s.phase then
          some (received prog { s with gors := s.gors.set i (.waiter .done) } none)
        else none
      | _ => none
    | _ => none
  | .ctxDone =>
    match s.pc with
    | .select => if s.cancelled then some { s with pc := .returned none } else none
    | _ => none
  | .cancel =>
    if s.cancelled then none
    else
      match s.pc with
      | .parked =>
        -- `main` is blocked in the select: the `w.Ctx.Done()` case fires
        some { s with cancelled := true, pc := .returned none }
      | _ => some { s with cancelled := true }

/-- Run the scheduler choices `tr` from `s`; `none` if one of them is not
enabled when its turn comes. -/
def exec (prog : Program) : State → List Action → Option State
  | s, [] => some s
  | s, a :: as =>
    match step prog s a with
    | none => none
    | some s1 => exec prog s1 as

/-- The calls invoked according to a log, in order. -/
def invokedCalls (log : List Event) : List Call :=
  log.filterMap fun ev => match ev with
    | .invoke c => some c
    | .ret _ _ => none

/-- A sample workflow in which every client call succeeds. -/
def sampleWorkflow : Workflow where
  Name := "wf"
  suffix := "x1"
  Project := "p"
  Zone := "z"
  namer := fun n wf sfx => n ++ "-" ++ wf ++ "-" ++ sfx
  deleteInstance := fun _ _ => none
  deleteImage := fun _ _ => none
  deleteDisk := fun _ _ => none
  WaitForInstanceStopped := fun _ _ _ _ => none

/-- A sample workflow in which deleting an instance fails with "not found". -/
def failingWorkflow : Workflow :=
  { sampleWorkflow with deleteInstance := fun _ _ => some "not found" }

/-- The steps of `step`, one constructor per enabled case, for case analysis in
proofs. -/
inductive Step (prog : Program) (s : State) : State → Prop
  | spawn (j : Nat) (t : Task) (hpc : s.pc = .spawn j)
      (ht : (prog.getD s.phase [])[j]? = some t) :
      Step prog s { s with wg := s.wg + 1, gors := s.gors ++ [.worker t .spawned],
                           pc := .spawn (j + 1) }
  | loopExit (j : Nat) (hpc : s.pc = .spawn j)
      (ht : (prog.getD s.phase [])[j]? = none) :
      Step prog s { s with pc := .spawnWaiter }
  | spawnWaiter (hpc : s.pc = .spawnWaiter) :
      Step prog s { s with gors := s.gors ++ [.waiter .waiting], pc := .select }
  | park (hpc : s.pc = .select)
      (hno : s.gors.any (Goroutine.sendingOn s.phase) = false)
      (hc : s.cancelled = false) :
      Step prog s { s with pc := .parked }
  | invoke (i : Nat) (t : Task) (hg : s.gors[i]? = some (.worker t .spawned)) :
      Step prog s { s with gors := s.gors.set i (.worker t .calling),
                           log := s.log ++ [.invoke t.call] }
  | ret (i : Nat) (t : Task) (hg : s.gors[i]? = some (.worker t .calling)) :
      Step prog s { s with gors := s.gors.set i (.worker t .returned),
                           log := s.log ++ [.ret t.call t.result] }
  | finishOk (i : Nat) (t : Task) (hg : s.gors[i]? = some (.worker t .returned))
      (hr : t.result = none) :
      Step prog s { s with gors := s.gors.set i (.worker t .finished), wg := s.wg - 1 }
  | beginSend (i : Nat) (t : Task) (err : String)
      (hg : s.gors[i]? = some (.worker t .returned)) (hr : t.result = some err)
      (hpc : s.pc ≠ .parked) :
      Step prog s { s with gors := s.gors.set i (.worker t (.sending s.phase err)) }
  | handErr (i : Nat) (t : Task) (err : String)
      (hg : s.gors[i]? = some (.worker t .returned)) (hr : t.result = some err)
      (hpc : s.pc = .parked) :
      Step prog s { s with gors := s.gors.set i (.worker t .sent),
                           pc := .returned (some err) }
  | finishSent (i : Nat) (t : Task) (hg : s.gors[i]? = some (.worker t .sent)) :
      Step prog s { s with gors := s.gors.set i (.worker t .finished), wg := s.wg - 1 }
  | wake (i : Nat) (hg : s.gors[i]? = some (.waiter .waiting)) (hwg : s.wg = 0) :
      Step prog s { s with gors := s.gors.set i (.waiter .woke) }
  | waiterSend (i : Nat) (hg : s.gors[i]? = some (.waiter .woke)) (hpc : s.pc ≠ .parked) :
      Step prog s { s with gors := s.gors.set i (.waiter (.sending s.phase)) }
  | handNilNext (i : Nat) (hg : s.gors[i]? = some (.waiter .woke)) (hpc : s.pc = .parked)
      (hlt : s.phase + 1 < prog.length) :
      Step prog s { s with gors := s.gors.set i (.waiter .done),
                           phase := s.phase + 1, pc := .spawn 0 }
  | handNilLast (i : Nat) (hg : s.gors[i]? = some (.waiter .woke)) (hpc : s.pc = .parked)
      (hlt : ¬ s.phase + 1 < prog.length) :
      Step prog s { s with gors := s.gors.set i (.waiter .done), pc := .returned none }
  | recvErr (i : Nat) (t : Task) (err : String) (hpc : s.pc = .select)
      (hg : s.gors[i]? = some (.worker t (.sending s.phase err))) :
      Step prog s { s with gors := s.gors.set i (.worker t .sent),
                           pc := .returned (some err) }
  | recvNilNext (i : Nat) (hpc : s.pc = .select)
      (hg : s.gors[i]? = some (.waiter (.sending s.phase)))
      (hlt : s.phase + 1 < prog.length) :
      Step prog s { s with gors := s.gors.set i (.waiter .done),
                           phase := s.phase + 1, pc := .spawn 0 }
  | recvNilLast (i : Nat) (hpc : s.pc = .select)
      (hg : s.gors[i]? = some (.waiter (.sending s.phase)))
      (hlt : ¬ s.phase + 1 < prog.length) :
      Step prog s { s with gors := s.gors.set i (.waiter .done), pc := .returned none }
  | ctxDone (hpc : s.pc = .select) (hc : s.cancelled = true) :
      Step prog s { s with pc := .returned none }
  | cancel (hc : s.cancelled = false) (hpc : s.pc ≠ .parked) :
      Step prog s { s with cancelled := true }
  | cancelParked (hc : s.cancelled = false) (hpc : s.pc = .parked) :
      Step prog s { s with cancelled := true, pc := .returned none }

/-- The number of steps a started goroutine can still take. -/
def Goroutine.todo : Goroutine → Nat
  | .worker _ .spawned => 5
  | .worker _ .calling => 4
  | .worker _ .returned => 3
  | .worker _ (.sending _ _) => 2
  | .worker _ .sent => 1
  | .worker _ .finished => 0
  | .waiter .waiting => 3
  | .waiter .woke => 2
  | .waiter (.sending _) => 1
  | .waiter .done => 0

/-- A bound on the steps of the phases from the `k`-th on, those of the
goroutines they start included. -/
def restTodo (prog : Program) (k : Nat) : Nat :=
  ((prog.drop k).map fun p => 6 * p.length + 7).sum

/-- A bound on the steps that `main` and the goroutines it has yet to start can
still take. -/
def mainTodo (prog : Program) (phase : Nat) : Pc → Nat
  | .spawn j => 6 * ((prog.getD phase []).length - j) + 7 + restTodo prog (phase + 1)
  | .spawnWaiter => 6 + restTodo prog (phase + 1)
  | .select => 2 + restTodo prog (phase + 1)
  | .parked => 1 + restTodo prog (phase + 1)
  | .returned _ => 0

/-- A bound on the number of steps that can still be taken from `s`; every
step lowers it. -/
def State.todo (prog : Program) (s : State) : Nat :=
  mainTodo prog s.phase s.pc + (s.gors.map Goroutine.todo).sum +
    (if s.cancelled then 0 else 1)

/-- What a goroutine was started for: its task, or `none` for a `wg.Wait()`
goroutine. -/
def Goroutine.kind : Goroutine → Option Task
  | .worker t _ => some t
  | .waiter _ => none

/-- The error returned by the client call of a goroutine. -/
def Goroutine.result : Goroutine → Option String
  | .worker t _ => t.result
  | .waiter _ => none

/-- A goroutine that has run to its end without an error to report. -/
def Goroutine.quiet : Goroutine → Bool
  | .worker t .finished => t.result.isNone
  | .waiter .done => true
  | _ => false

/-- A started loop goroutine whose `wg.Done()` has not run yet. -/
def Goroutine.unfinished : Goroutine → Bool
  | .worker _ .finished => false
  | .worker _ _ => true
  | .waiter _ => false

/-- A blocked send is on the channel of phase `phase`, and a loop goroutine
sends the error its call returned. -/
def Goroutine.chanOk (phase : Nat) : Goroutine → Prop
  | .worker t (.sending ch err) => ch = phase ∧ t.result = some err
  | .waiter (.sending ch) => ch = phase
  | _ => True

/-- A `wg.Wait()` goroutine whose `Wait` has returned and whose `nil` has not
been received yet. -/
def Goroutine.awake : Goroutine → Bool
  | .waiter .woke => true
  | .waiter (.sending _) => true
  | _ => false

/-- A loop goroutine whose error has been received by `main`. -/
def Goroutine.reported : Goroutine → Bool
  | .worker _ .sent => true
  | .worker t .finished => t.result.isSome
  | _ => false

/-- A loop goroutine that has made the call `c`. -/
def Goroutine.invoked (c : Call) : Goroutine → Bool
  | .worker _ .spawned => false
  | .worker t _ => decide (t.call = c)
  | .waiter _ => false

/-- A loop goroutine whose call `c` has returned `r`. -/
def Goroutine.hasReturned (c : Call) (r : Option String) : Goroutine → Bool
  | .worker _ .spawned => false
  | .worker _ .calling => false
  | .worker t _ => decide (t.call = c ∧ t.result = r)
  | .waiter _ => false

/-- The kinds of the goroutines started in the phases before `phase`. -/
def oldShape (prog : Program) (phase : Nat) : List (Option Task) :=
  (prog.take phase).flatMap fun p => p.map some ++ [none]

/-- The kinds of the goroutines started so far in the current phase. -/
def curShape (prog : Program) (phase : Nat) : Pc → List (Option Task)
  | .spawn j => ((prog.getD phase []).take j).map some
  | .spawnWaiter => (prog.getD phase []).map some
  | .select => (prog.getD phase []).map some ++ [none]
  | .parked => (prog.getD phase []).map some ++ [none]
  | .returned _ => (prog.getD phase []).map some ++ [none]

/-- Whether `main` is in a select or has left one. -/
def Pc.joined : Pc → Bool
  | .select => true
  | .parked => true
  | .returned _ => true
  | _ => false

/-- The invariant of the executions of a program. -/
structure Inv (prog : Program) (s : State) : Prop where
  /-- The goroutines started so far are those of the earlier phases and the
  ones `main` has started in the current phase. -/
  shape : s.gors.map Goroutine.kind = oldShape prog s.phase ++ curShape prog s.phase s.pc
  /-- The goroutines of earlier phases have run to their end without error. -/
  old : ∀ i g, s.gors[i]? = some g → i < (oldShape prog s.phase).length → g.quiet = true
  /-- The wait group counts the loop goroutines whose `wg.Done()` is to come. -/
  wg : s.wg = (s.gors.countP Goroutine.unfinished : Nat)
  /-- Blocked sends are on the current channel. -/
  chan : ∀ g ∈ s.gors, g.chanOk s.phase
  /-- Once a `wg.Wait()` has returned the counter stays zero. -/
  awake : ∀ g ∈ s.gors, g.awake = true → s.wg = 0 ∧ s.pc.joined = true
  /-- An error that has been received is what `main` returned. -/
  errs : ∀ g ∈ s.gors, g.reported = true → g.result ≠ none ∧ s.pc = .returned g.result
  /-- The `nil` of the current phase is received only when `main` returns. -/
  doneW : ∀ i, s.gors[i]? = some (.waiter .done) →
    i < (oldShape prog s.phase).length ∨ ∃ r, s.pc = .returned r
  /-- Why `main` returned. -/
  ret : ∀ r, s.pc = .returned r →
    (r ≠ none ∧ ∃ g ∈ s.gors, g.reported = true ∧ g.result = r) ∨
    (r = none ∧ s.cancelled = true) ∨
    (r = none ∧ ¬ s.phase + 1 < prog.length ∧ ∀ g ∈ s.gors, g.quiet = true)
  /-- The log has one `invoke` per goroutine that has made its call. -/
  logI : ∀ c, s.log.count (.invoke c) = s.gors.countP (Goroutine.invoked c)
  /-- The log has one `ret` per goroutine whose call has returned. -/
  logR : ∀ c r, s.log.count (.ret c r) = s.gors.countP (Goroutine.hasReturned c r)
  /-- The current phase is a phase of the program. -/
  bound : s.phase < prog.length ∨ s.phase = 0
  /-- While `main` is blocked in the select nothing can proceed. -/
  parked : s.pc = .parked →
    s.cancelled = false ∧ ∀ g ∈ s.gors, g.sendingOn s.phase = false

/-- The calls of the first phase of `DeleteResources.run`. -/
def Call.isPhase1 : Call → Bool
  | .deleteInstance _ => true
  | .deleteImage _ => true
  | _ => false

/-- The returns of the calls of the first phase of `DeleteResources.run`. -/
def Event.isPhase1Ret : Event → Bool
  | .ret c _ => c.isPhase1
  | .invoke _ => false

/-- The successful return of every call of the first phase of
`DeleteResources.run`: one per entry of `Instances` and one per entry of
`Images`. -/
def DeleteResources.phase1Returns (d : DeleteResources) (w : Workflow) : List Event :=
  d.Instances.map (fun i => Event.ret (.deleteInstance (w.namer i w.Name w.suffix)) none) ++
  d.Images.map (fun i => Event.ret (.deleteImage i) none)

/-- In a log, every `deleteDisk` invocation comes after the successful return
of every call of the first phase: the returns of first-phase calls logged
before it are exactly one successful return per entry of `Instances` and of
`Images`. -/
def LogOrdered (d : DeleteResources) (w : Workflow) (log : List Event) : Prop :=
  ∀ l1 n l2, log = l1 ++ Event.invoke (.deleteDisk n) :: l2 →
    (l1.filter Event.isPhase1Ret).Perm (d.phase1Returns w)

/-- The client calls `DeleteResources.run` is meant to make: one
`deleteInstance` per entry of `Instances` on `namer(entry, w.Name, w.suffix)`,
one `deleteImage` per entry of `Images` on the entry itself, and one
`deleteDisk` per entry of `Disks` on `namer(entry, w.Name, w.suffix)`. -/
def DeleteResources.calls (d : DeleteResources) (w : Workflow) : List Call :=
  d.Instances.map (fun i => Call.deleteInstance (w.namer i w.Name w.suffix)) ++
  d.Images.map (fun i => Call.deleteImage i) ++
  d.Disks.map (fun x => Call.deleteDisk (w.namer x w.Name w.suffix))

/-- The client calls `WaitForInstancesStopped.run` is meant to make: one
`WaitForInstanceStopped` per listed instance, on its resolved name. -/
def WaitForInstancesStopped.calls (s : WaitForInstancesStopped) (w : Workflow) : List Call :=
  s.map fun name =>
    Call.WaitForInstanceStopped w.Project w.Zone (w.namer name w.Name w.suffix)

/-- Every client call made by the program returns `nil`. -/
def AllSucceed (prog : Program) : Prop :=
  ∀ p ∈ prog, ∀ t ∈ p, t.result = none

/-- Total correctness of a program whose calls all succeed, over all
executions in which the workflow is never cancelled: such an execution is never
longer than the bound of the initial state, it can always be continued until
`main` has returned `nil`, and whenever `main` has returned, it has returned
`nil` and the calls invoked are exactly `calls`, each once. -/
def RunsToCompletion (prog : Program) (calls : List Call) : Prop :=
  ∀ tr s, exec prog State.init tr = some s → Action.cancel ∉ tr →
    tr.length ≤ State.init.todo prog ∧
    (∃ tr1 s1, Action.cancel ∉ tr1 ∧ exec prog s tr1 = some s1 ∧ s1.pc = .returned none) ∧
    (∀ r, s.pc = .returned r → r = none ∧ (invokedCalls s.log).Perm calls)

/-- What cancellation guarantees for a program.  If the workflow is cancelled
while `main` is blocked in the select, `main` returns `nil`.  In every state
reached with the workflow cancelled: when `main` arrives at the select, the
`w.Ctx.Done()` case can be taken and makes `main` return `nil`; if `main` has
not returned yet it can reach that return by its own steps alone, whatever the
other goroutines are doing; and a value `main` has returned is `nil` or the
error of a loop goroutine whose send the select has received. -/
def CancelReturns (prog : Program) : Prop :=
  (∀ tr s, exec prog State.init tr = some s → s.pc = .parked →
    ∃ s1, step prog s .cancel = some s1 ∧ s1.pc = .returned none) ∧
  (∀ tr s, exec prog State.init tr = some s → s.cancelled = true →
    (s.pc = .select →
      ∃ s1, step prog s .ctxDone = some s1 ∧ s1.pc = .returned none) ∧
    ((∀ r, s.pc ≠ .returned r) →
      ∃ tr1 s1, (∀ a ∈ tr1, a = Action.main ∨ a = Action.ctxDone) ∧
        exec prog s tr1 = some s1 ∧ s1.pc = .returned none) ∧
    (∀ r, s.pc = .returned r → r = none ∨
      ∃ t st, Goroutine.worker t st ∈ s.gors ∧ (st = .sent ∨ st = .finished) ∧
        t.result = r))

/-! ## Part 1: theorems about validation -/

theorem validateDisks_eq (env : Env) (l : List String) (reg : NameSet) :
    validateDisks env l reg = checkLoop env env.diskExists
      "cannot delete disk. Disk not found: " "error scheduling disk for deletion: " l reg := by
  induction l generalizing reg with
  | nil => rfl
  | cons x rest ih =>
    simp only [validateDisks, checkLoop]
    split
    · rfl
    · split
      · rfl
      · exact ih _

theorem validateInstances_eq (env : Env) (l : List String) (reg : NameSet) :
    validateInstances env l reg = checkLoop env env.instanceExists
      "cannot delete instance. Instance not found: "
      "error scheduling instance for deletion: " l reg := by
  induction l generalizing reg with
  | nil => rfl
  | cons x rest ih =>
    simp only [validateInstances, checkLoop]
    split
    · rfl
    · split
      · rfl
      · exact ih _

theorem checkLoop_cons (env : Env) (ex : String → Bool) (nf dup : String)
    (x : String) (rest : List String) (reg : NameSet) :
    checkLoop env ex nf dup (x :: rest) reg =
      if ex x = false then (some (nf ++ x), reg)
      else if x ∈ reg then (some (dup ++ env.addError reg x), reg)
      else checkLoop env ex nf dup rest (reg ++ [x]) := by
  simp only [checkLoop, NameSet.add]
  by_cases h1 : ex x = false
  · simp [h1]
  · by_cases h2 : x ∈ reg
    · simp [h1, h2]
    · simp [h1, h2]

theorem checkLoop_none_iff (env : Env) (ex : String → Bool) (nf dup : String)
    (l : List String) (reg : NameSet) :
    (checkLoop env ex nf dup l reg).1 = none ↔
      (∀ x ∈ l, ex x = true) ∧ l.Nodup ∧ ∀ x ∈ l, x ∉ reg := by
  induction l generalizing reg with
  | nil => simp [checkLoop]
  | cons x rest ih =>
    rw [checkLoop_cons]
    by_cases h1 : ex x = false
    · simp [h1]
    · by_cases h2 : x ∈ reg
      · simp [h1, h2]
      · rw [if_neg h1, if_neg h2, ih]
        simp only [Bool.not_eq_false] at h1
        constructor
        · rintro ⟨a, b, c⟩
          refine ⟨?_, ?_, ?_⟩
          · intro y hy
            rcases List.mem_cons.mp hy with rfl | hy
            · exact h1
            · exact a y hy
          · refine List.nodup_cons.mpr ⟨fun hx => ?_, b⟩
            exact c x hx (List.mem_append.mpr (Or.inr (List.mem_singleton.mpr rfl)))
          · intro y hy
            rcases List.mem_cons.mp hy with rfl | hy
            · exact h2
            · exact fun hr => c y hy (List.mem_append.mpr (Or.inl hr))
        · rintro ⟨a, b, c⟩
          refine ⟨fun y hy => a y (List.mem_cons_of_mem _ hy), (List.nodup_cons.mp b).2, ?_⟩
          intro y hy hr
          rcases List.mem_append.mp hr with hr | hr
          · exact c y (List.mem_cons_of_mem _ hy) hr
          · rw [List.mem_singleton] at hr
            subst hr
            exact (List.nodup_cons.mp b).1 hy

theorem checkLoop_ok (env : Env) (ex : String → Bool) (nf dup : String)
    (l : List String) (reg : NameSet)
    (h : (checkLoop env ex nf dup l reg).1 = none) :
    checkLoop env ex nf dup l reg = (none, reg ++ l) := by
  induction l generalizing reg with
  | nil => simp [checkLoop]
  | cons x rest ih =>
    rw [checkLoop_cons] at h ⊢
    by_cases h1 : ex x = false
    · simp [h1] at h
    · by_cases h2 : x ∈ reg
      · simp [h1, h2] at h
      · simp only [h1, h2, if_false] at h ⊢
        rw [ih _ h]
        simp

theorem checkLoop_append (env : Env) (ex : String → Bool) (nf dup : String)
    (pre l : List String) (reg : NameSet)
    (h : (checkLoop env ex nf dup pre reg).1 = none) :
    checkLoop env ex nf dup (pre ++ l) reg = checkLoop env ex nf dup l (reg ++ pre) := by
  induction pre generalizing reg with
  | nil => simp
  | cons x rest ih =>
    rw [checkLoop_cons] at h
    rw [List.cons_append, checkLoop_cons]
    by_cases h1 : ex x = false
    · simp [h1] at h
    · by_cases h2 : x ∈ reg
      · simp [h1, h2] at h
      · simp only [h1, h2, if_false] at h ⊢
        rw [ih _ h]
        simp

/-- A failing loop stops at a first failing entry: everything before it passed
and was claimed, nothing after it was looked at. -/
theorem checkLoop_fail (env : Env) (ex : String → Bool) (nf dup : String)
    (l : List String) (reg : NameSet) (e : String)
    (h : (checkLoop env ex nf dup l reg).1 = some e) :
    ∃ pre x post, l = pre ++ x :: post ∧
      (checkLoop env ex nf dup pre reg).1 = none ∧
      (checkLoop env ex nf dup l reg).2 = reg ++ pre ∧
      ((ex x = false ∧ e = nf ++ x) ∨
       (ex x = true ∧ x ∈ reg ++ pre ∧ e = dup ++ env.addError (reg ++ pre) x)) := by
  induction l generalizing reg with
  | nil => simp [checkLoop] at h
  | cons x rest ih =>
    rw [checkLoop_cons] at h ⊢
    by_cases h1 : ex x = false
    · simp only [h1, if_true, Option.some.injEq] at h ⊢
      exact ⟨[], x, rest, rfl, rfl, by simp, Or.inl ⟨h1, h.symm⟩⟩
    · by_cases h2 : x ∈ reg
      · simp only [h1, h2, if_true, if_false, Option.some.injEq] at h ⊢
        simp only [Bool.not_eq_false] at h1
        exact ⟨[], x, rest, rfl, rfl, by simp, Or.inr ⟨h1, by simpa using h2, by simpa using h.symm⟩⟩
      · simp only [h1, h2, if_false] at h ⊢
        obtain ⟨pre, y, post, hl, hp, hr, hy⟩ := ih _ h
        refine ⟨x :: pre, y, post, by simp [hl], ?_, by simpa using hr, by simpa using hy⟩
        rw [checkLoop_cons]
        simpa [h1, h2] using hp

theorem validate_eq (env : Env) (d : DeleteResources) (reg : Registry) :
    d.validate env reg =
      if (validateDisks env d.Disks reg.diskNamesToDelete).1 ≠ none then
        ((validateDisks env d.Disks reg.diskNamesToDelete).1,
          ⟨(validateDisks env d.Disks reg.diskNamesToDelete).2, reg.instanceNamesToDelete⟩)
      else
        ((validateInstances env d.Instances reg.instanceNamesToDelete).1,
          ⟨(validateDisks env d.Disks reg.diskNamesToDelete).2,
            (validateInstances env d.Instances reg.instanceNamesToDelete).2⟩) := by
  unfold DeleteResources.validate
  rcases hd : validateDisks env d.Disks reg.diskNamesToDelete with ⟨_ | e, disks⟩
  · rcases hi : validateInstances env d.Instances reg.instanceNamesToDelete with ⟨_ | e, insts⟩
    · simp
    · simp
  · simp

theorem validateDisks_ok (env : Env) (l : List String) (reg : NameSet)
    (h : (validateDisks env l reg).1 = none) : validateDisks env l reg = (none, reg ++ l) := by
  rw [validateDisks_eq] at h ⊢
  exact checkLoop_ok _ _ _ _ _ _ h

theorem validateInstances_ok (env : Env) (l : List String) (reg : NameSet)
    (h : (validateInstances env l reg).1 = none) :
    validateInstances env l reg = (none, reg ++ l) := by
  rw [validateInstances_eq] at h ⊢
  exact checkLoop_ok _ _ _ _ _ _ h

theorem validateDisks_none_iff (env : Env) (l : List String) (reg : NameSet) :
    (validateDisks env l reg).1 = none ↔
      (∀ x ∈ l, env.diskExists x = true) ∧ l.Nodup ∧ ∀ x ∈ l, x ∉ reg := by
  rw [validateDisks_eq]
  exact checkLoop_none_iff _ _ _ _ _ _

theorem validateInstances_none_iff (env : Env) (l : List String) (reg : NameSet) :
    (validateInstances env l reg).1 = none ↔
      (∀ x ∈ l, env.instanceExists x = true) ∧ l.Nodup ∧ ∀ x ∈ l, x ∉ reg := by
  rw [validateInstances_eq]
  exact checkLoop_none_iff _ _ _ _ _ _

/-- A failing disk loop, decomposed at its first failing entry. -/
theorem validateDisks_fail (env : Env) (l : List String) (reg : NameSet) (e : String)
    (h : (validateDisks env l reg).1 = some e) :
    ∃ pre x post, l = pre ++ x :: post ∧
      (validateDisks env pre reg).1 = none ∧
      (validateDisks env l reg).2 = reg ++ pre ∧
      ((env.diskExists x = false ∧ e = diskNotFound x) ∨
       (env.diskExists x = true ∧ x ∈ reg ++ pre ∧
        e = "error scheduling disk for deletion: " ++ env.addError (reg ++ pre) x)) := by
  simp only [validateDisks_eq] at h ⊢
  exact checkLoop_fail _ _ _ _ _ _ _ h

/-- A failing instance loop, decomposed at its first failing entry. -/
theorem validateInstances_fail (env : Env) (l : List String) (reg : NameSet) (e : String)
    (h : (validateInstances env l reg).1 = some e) :
    ∃ pre x post, l = pre ++ x :: post ∧
      (validateInstances env pre reg).1 = none ∧
      (validateInstances env l reg).2 = reg ++ pre ∧
      ((env.instanceExists x = false ∧ e = instanceNotFound x) ∨
       (env.instanceExists x = true ∧ x ∈ reg ++ pre ∧
        e = "error scheduling instance for deletion: " ++ env.addError (reg ++ pre) x)) := by
  simp only [validateInstances_eq] at h ⊢
  exact checkLoop_fail _ _ _ _ _ _ _ h

/-- The registry after a loop is the registry before it followed by names of
the list that were not in it: an already claimed name is never claimed again. -/
theorem checkLoop_count (env : Env) (ex : String → Bool) (nf dup : String)
    (l : List String) (reg : NameSet) (y : String) (hy : y ∈ reg) :
    (checkLoop env ex nf dup l reg).2.count y = reg.count y := by
  induction l generalizing reg with
  | nil => simp [checkLoop]
  | cons x rest ih =>
    rw [checkLoop_cons]
    by_cases h1 : ex x = false
    · simp [h1]
    · by_cases h2 : x ∈ reg
      · simp [h1, h2]
      · rw [if_neg h1, if_neg h2, ih _ (List.mem_append.mpr (Or.inl hy))]
        have hne : x ≠ y := fun h => h2 (h ▸ hy)
        simp [List.count_append, List.count_cons, hne]

theorem validate_count_disk (env : Env) (d : DeleteResources) (reg : Registry) (y : String)
    (hy : y ∈ reg.diskNamesToDelete) :
    (d.validate env reg).2.diskNamesToDelete.count y = reg.diskNamesToDelete.count y := by
  rw [validate_eq]
  split <;> simp only [validateDisks_eq] <;> exact checkLoop_count _ _ _ _ _ _ _ hy

theorem validate_count_instance (env : Env) (d : DeleteResources) (reg : Registry) (y : String)
    (hy : y ∈ reg.instanceNamesToDelete) :
    (d.validate env reg).2.instanceNamesToDelete.count y =
      reg.instanceNamesToDelete.count y := by
  rw [validate_eq]
  split
  · rfl
  · simp only [validateInstances_eq]
    exact checkLoop_count _ _ _ _ _ _ _ hy

theorem notFound_not_duplicate (env : Env) (name : String) :
    ¬ DuplicateSchedule env (diskNotFound name) := by
  rintro ⟨s, n, h | h⟩ <;>
  · have h2 := congrArg String.data h
    simp [diskNotFound, String.data_append] at h2

/-- C1: a step whose disks and instances all exist, are listed without
repetition and are not yet claimed validates without error, and afterwards each
registry is the old registry plus the names the step lists. -/
theorem validate_claims_exactly (env : Env) (d : DeleteResources) (reg : Registry)
    (hd : ∀ x ∈ d.Disks, env.diskExists x = true)
    (hi : ∀ x ∈ d.Instances, env.instanceExists x = true)
    (nd : d.Disks.Nodup) (ni : d.Instances.Nodup)
    (fd : ∀ x ∈ d.Disks, x ∉ reg.diskNamesToDelete)
    (fi : ∀ x ∈ d.Instances, x ∉ reg.instanceNamesToDelete) :
    (d.validate env reg).1 = none ∧
    (d.validate env reg).2.diskNamesToDelete = reg.diskNamesToDelete ++ d.Disks ∧
    (d.validate env reg).2.instanceNamesToDelete =
      reg.instanceNamesToDelete ++ d.Instances ∧
    (∀ x, x ∈ (d.validate env reg).2.diskNamesToDelete ↔
      x ∈ reg.diskNamesToDelete ∨ x ∈ d.Disks) ∧
    (∀ x, x ∈ (d.validate env reg).2.instanceNamesToDelete ↔
      x ∈ reg.instanceNamesToDelete ∨ x ∈ d.Instances) := by
  have h1 := validateDisks_ok env d.Disks reg.diskNamesToDelete
    ((validateDisks_none_iff _ _ _).mpr ⟨hd, nd, fd⟩)
  have h2 := validateInstances_ok env d.Instances reg.instanceNamesToDelete
    ((validateInstances_none_iff _ _ _).mpr ⟨hi, ni, fi⟩)
  rw [validate_eq, h1, h2]
  simp

theorem validate_claims_exactly_witness :
    (DeleteResources.validate sampleEnv ⟨["a", "b"], ["d1"], ["img"]⟩ ⟨["d2"], []⟩).1 = none ∧
    (DeleteResources.validate sampleEnv ⟨["a", "b"], ["d1"], ["img"]⟩
      ⟨["d2"], []⟩).2.diskNamesToDelete = ["d2", "d1"] :=
  have h := validate_claims_exactly sampleEnv ⟨["a", "b"], ["d1"], ["img"]⟩ ⟨["d2"], []⟩
    (by decide) (by decide) (by decide) (by decide) (by decide) (by decide)
  ⟨h.1, h.2.1⟩

/-- C2 as stated fails: disk `d1` exists and has been claimed by an earlier
step, and a second step lists it after a disk `zz` that does not exist; validate
fails with the not-found error for `zz`, which is not a `DuplicateSchedule`
error, because each entry is checked for existence before it is claimed. -/
theorem validate_claimed_not_duplicate :
    DeleteResources.validate sampleEnv ⟨[], ["d1"], []⟩ ⟨[], []⟩ = (none, ⟨["d1"], []⟩) ∧
    "d1" ∈ (⟨[], ["zz", "d1"], []⟩ : DeleteResources).Disks ∧
    (DeleteResources.validate sampleEnv ⟨[], ["zz", "d1"], []⟩ ⟨["d1"], []⟩).1 =
      some (diskNotFound "zz") ∧
    ¬ DuplicateSchedule sampleEnv (diskNotFound "zz") :=
  ⟨by decide, by decide, by decide, notFound_not_duplicate _ _⟩

/-- A loop whose entries up to and including an already claimed one all exist
stops with the wrapped error of a failed `add`. -/
theorem checkLoop_dup (env : Env) (ex : String → Bool) (nf dup : String)
    (pre post : List String) (x : String) (reg : NameSet)
    (hpre : ∀ y ∈ pre, ex y = true) (hx : ex x = true) (hreg : x ∈ reg) :
    ∃ s name, (checkLoop env ex nf dup (pre ++ x :: post) reg).1 =
      some (dup ++ env.addError s name) := by
  induction pre generalizing reg with
  | nil =>
    rw [List.nil_append, checkLoop_cons]
    exact ⟨reg, x, by simp [hx, hreg]⟩
  | cons y ys ih =>
    have hy : ex y = true := hpre y (List.mem_cons_self _ _)
    rw [List.cons_append, checkLoop_cons]
    by_cases h2 : y ∈ reg
    · exact ⟨reg, y, by simp [hy, h2]⟩
    · obtain ⟨s, name, h⟩ := ih (reg ++ [y])
        (fun z hz => hpre z (List.mem_cons_of_mem _ hz))
        (List.mem_append.mpr (Or.inl hreg))
      exact ⟨s, name, by simpa [hy, h2] using h⟩

/-- C2, amended: when a step lists a disk (or instance) that is already claimed
in the corresponding registry, validate fails at a first failing entry, every
entry before which passed; the error is the not-found error naming that entry if
it does not exist, and otherwise the `DuplicateSchedule` error for that entry.
In particular the error is a `DuplicateSchedule` error whenever the claimed
resource and every entry checked before it exist.  After the call every name
that was claimed before is still claimed exactly once. -/
theorem validate_already_claimed (env : Env) (d : DeleteResources) (reg : Registry)
    (x : String)
    (hx : (x ∈ d.Disks ∧ x ∈ reg.diskNamesToDelete) ∨
      (x ∈ d.Instances ∧ x ∈ reg.instanceNamesToDelete))
    (hset : reg.diskNamesToDelete.Nodup ∧ reg.instanceNamesToDelete.Nodup) :
    (∃ e, (d.validate env reg).1 = some e ∧
      ((∃ pre f post, d.Disks = pre ++ f :: post ∧
          (validateDisks env pre reg.diskNamesToDelete).1 = none ∧
          (∀ y ∈ pre, y ∉ reg.diskNamesToDelete) ∧
          ((env.diskExists f = false ∧ e = diskNotFound f) ∨
           (env.diskExists f = true ∧ f ∈ reg.diskNamesToDelete ++ pre ∧
            e = "error scheduling disk for deletion: " ++
              env.addError (reg.diskNamesToDelete ++ pre) f ∧
            DuplicateSchedule env e))) ∨
       (∃ pre f post, (validateDisks env d.Disks reg.diskNamesToDelete).1 = none ∧
          d.Instances = pre ++ f :: post ∧
          (validateInstances env pre reg.instanceNamesToDelete).1 = none ∧
          (∀ y ∈ pre, y ∉ reg.instanceNamesToDelete) ∧
          ((env.instanceExists f = false ∧ e = instanceNotFound f) ∨
           (env.instanceExists f = true ∧ f ∈ reg.instanceNamesToDelete ++ pre ∧
            e = "error scheduling instance for deletion: " ++
              env.addError (reg.instanceNamesToDelete ++ pre) f ∧
            DuplicateSchedule env e))))) ∧
    (∀ pre post, d.Disks = pre ++ x :: post → x ∈ reg.diskNamesToDelete →
      (∀ y ∈ pre, env.diskExists y = true) → env.diskExists x = true →
      ∃ e, (d.validate env reg).1 = some e ∧ DuplicateSchedule env e) ∧
    (∀ pre post, d.Instances = pre ++ x :: post → x ∈ reg.instanceNamesToDelete →
      (∀ y ∈ d.Disks, env.diskExists y = true) →
      (∀ y ∈ pre, env.instanceExists y = true) → env.instanceExists x = true →
      ∃ e, (d.validate env reg).1 = some e ∧ DuplicateSchedule env e) ∧
    (∀ y ∈ reg.diskNamesToDelete, (d.validate env reg).2.diskNamesToDelete.count y = 1) ∧
    (∀ y ∈ reg.instanceNamesToDelete,
      (d.validate env reg).2.instanceNamesToDelete.count y = 1) := by
  refine ⟨?_, ?_, ?_, ?_, ?_⟩
  · -- validate fails, at a first failing entry
    have hfail : (d.validate env reg).1 ≠ none := by
      rw [validate_eq]
      split
      · assumption
      · rename_i hnd
        rcases hx with ⟨h1, h2⟩ | ⟨h1, h2⟩
        · exact absurd (not_not.mp hnd)
            (fun h => ((validateDisks_none_iff _ _ _).mp h).2.2 x h1 h2)
        · exact fun h => ((validateInstances_none_iff _ _ _).mp h).2.2 x h1 h2
    obtain ⟨e, he⟩ := Option.ne_none_iff_exists'.mp hfail
    refine ⟨e, he, ?_⟩
    rw [validate_eq] at he
    split at he
    · obtain ⟨pre, f, post, hl, hp, _, hf⟩ := validateDisks_fail _ _ _ _ he
      refine Or.inl ⟨pre, f, post, hl, hp, ((validateDisks_none_iff _ _ _).mp hp).2.2, ?_⟩
      rcases hf with ⟨a, b⟩ | ⟨a, b, c⟩
      · exact Or.inl ⟨a, b⟩
      · exact Or.inr ⟨a, b, c, _, f, Or.inl c⟩
    · rename_i hd
      obtain ⟨pre, f, post, hl, hp, _, hf⟩ := validateInstances_fail _ _ _ _ he
      refine Or.inr ⟨pre, f, post, not_not.mp hd, hl, hp,
        ((validateInstances_none_iff _ _ _).mp hp).2.2, ?_⟩
      rcases hf with ⟨a, b⟩ | ⟨a, b, c⟩
      · exact Or.inl ⟨a, b⟩
      · exact Or.inr ⟨a, b, c, _, f, Or.inr c⟩
  · -- a claimed disk that exists, after disks that exist
    intro pre post hl hreg hpre hex
    obtain ⟨s, name, h⟩ := checkLoop_dup env env.diskExists
      "cannot delete disk. Disk not found: " "error scheduling disk for deletion: "
      pre post x reg.diskNamesToDelete hpre hex hreg
    rw [← validateDisks_eq, ← hl] at h
    refine ⟨_, ?_, s, name, Or.inl rfl⟩
    rw [validate_eq, if_pos (by rw [h]; simp), h]
  · -- a claimed instance that exists, after disks and instances that exist
    intro pre post hl hreg hdisks hpre hex
    by_cases hd : (validateDisks env d.Disks reg.diskNamesToDelete).1 = none
    · obtain ⟨s, name, h⟩ := checkLoop_dup env env.instanceExists
        "cannot delete instance. Instance not found: "
        "error scheduling instance for deletion: "
        pre post x reg.instanceNamesToDelete hpre hex hreg
      rw [← validateInstances_eq, ← hl] at h
      refine ⟨_, ?_, s, name, Or.inr rfl⟩
      rw [validate_eq, if_neg (by rw [hd]; simp), h]
    · obtain ⟨e, he⟩ := Option.ne_none_iff_exists'.mp hd
      obtain ⟨p, f, q, hlf, _, _, hf⟩ := validateDisks_fail _ _ _ _ he
      refine ⟨e, by rw [validate_eq, if_pos hd, he], ?_⟩
      rcases hf with ⟨a, _⟩ | ⟨_, _, c⟩
      · rw [hdisks f (by simp [hlf])] at a
        cases a
      · exact ⟨_, f, Or.inl c⟩
  · intro y hy
    rw [validate_count_disk env d reg y hy]
    exact List.count_eq_one_of_mem hset.1 hy
  · intro y hy
    rw [validate_count_instance env d reg y hy]
    exact List.count_eq_one_of_mem hset.2 hy

theorem validate_already_claimed_witness :
    (∃ e, (DeleteResources.validate sampleEnv ⟨["a"], ["d1", "zz"], []⟩ ⟨["d1"], []⟩).1 =
        some e ∧ DuplicateSchedule sampleEnv e) ∧
    (DeleteResources.validate sampleEnv ⟨["a"], ["d1", "zz"], []⟩
      ⟨["d1"], []⟩).2.diskNamesToDelete.count "d1" = 1 :=
  have h := validate_already_claimed sampleEnv ⟨["a"], ["d1", "zz"], []⟩ ⟨["d1"], []⟩ "d1"
    (Or.inl ⟨by decide, by decide⟩) ⟨by decide, by decide⟩
  ⟨h.2.1 [] ["zz"] rfl (by decide) (by simp) (by decide), h.2.2.2.1 "d1" (by decide)⟩

/-- C3: validate returns nil only if every listed disk and instance exists;
when the first failing entry is a disk that does not exist, the error is the
disk-not-found error naming it, and when all disks pass and the first failing
instance does not exist, the error is the instance-not-found error naming it;
in both cases that name is claimed no more often in its registry after the call
than before. -/
theorem validate_not_found (env : Env) (d : DeleteResources) (reg : Registry) :
    ((d.validate env reg).1 = none →
      (∀ x ∈ d.Disks, env.diskExists x = true) ∧
      (∀ x ∈ d.Instances, env.instanceExists x = true)) ∧
    (∀ pre x post, d.Disks = pre ++ x :: post →
      (validateDisks env pre reg.diskNamesToDelete).1 = none →
      env.diskExists x = false →
      (d.validate env reg).1 = some (diskNotFound x) ∧
      (d.validate env reg).2.diskNamesToDelete.count x = reg.diskNamesToDelete.count x) ∧
    (∀ pre x post, (validateDisks env d.Disks reg.diskNamesToDelete).1 = none →
      d.Instances = pre ++ x :: post →
      (validateInstances env pre reg.instanceNamesToDelete).1 = none →
      env.instanceExists x = false →
      (d.validate env reg).1 = some (instanceNotFound x) ∧
      (d.validate env reg).2.instanceNamesToDelete.count x =
        reg.instanceNamesToDelete.count x) := by
  refine ⟨?_, ?_, ?_⟩
  · intro h
    rw [validate_eq] at h
    split at h
    · rename_i hd
      exact absurd h hd
    · rename_i hd
      exact ⟨((validateDisks_none_iff _ _ _).mp (not_not.mp hd)).1,
        ((validateInstances_none_iff _ _ _).mp h).1⟩
  · intro pre x post hl hp hx
    have hpre := (validateDisks_none_iff _ _ _).mp hp
    have hrun : validateDisks env d.Disks reg.diskNamesToDelete =
        (some (diskNotFound x), reg.diskNamesToDelete ++ pre) := by
      rw [validateDisks_eq] at hp ⊢
      rw [hl, checkLoop_append _ _ _ _ _ _ _ hp, checkLoop_cons]
      simp [hx, diskNotFound]
    rw [validate_eq, hrun]
    have hnot : x ∉ pre := fun hm => by
      rw [hpre.1 x hm] at hx; cases hx
    simp [List.count_append, List.count_eq_zero_of_not_mem hnot]
  · intro pre x post hd hl hp hx
    have hpre := (validateInstances_none_iff _ _ _).mp hp
    have hrun : validateInstances env d.Instances reg.instanceNamesToDelete =
        (some (instanceNotFound x), reg.instanceNamesToDelete ++ pre) := by
      rw [validateInstances_eq] at hp ⊢
      rw [hl, checkLoop_append _ _ _ _ _ _ _ hp, checkLoop_cons]
      simp [hx, instanceNotFound]
    rw [validate_eq, hrun, hd]
    have hnot : x ∉ pre := fun hm => by
      rw [hpre.1 x hm] at hx; cases hx
    simp [List.count_append, List.count_eq_zero_of_not_mem hnot]

theorem validate_not_found_witness :
    (DeleteResources.validate sampleEnv ⟨["a", "zz"], ["d1"], []⟩ ⟨[], []⟩).1 =
      some (instanceNotFound "zz") ∧
    (DeleteResources.validate sampleEnv ⟨["a", "zz"], ["d1"], []⟩
      ⟨[], []⟩).2.instanceNamesToDelete.count "zz" = 0 :=
  (validate_not_found sampleEnv ⟨["a", "zz"], ["d1"], []⟩ ⟨[], []⟩).2.2
    ["a"] "zz" [] (by decide) rfl (by decide) (by decide)

/-- C4: a failing validate stops at a first failing entry and keeps what it
claimed.  If it fails on a disk, the disk registry is the old one followed by
the disks before the failing one and the instance registry is untouched; if it
fails on an instance, the disk registry is the old one followed by all disks and
the instance registry is the old one followed by the instances before the
failing one.  So old entries stay, entries checked earlier are claimed, and
nothing after the failing entry is added. -/
theorem validate_no_rollback (env : Env) (d : DeleteResources) (reg : Registry) (e : String)
    (h : (d.validate env reg).1 = some e) :
    (∃ pre x post, d.Disks = pre ++ x :: post ∧
      (validateDisks env pre reg.diskNamesToDelete).1 = none ∧
      (env.diskExists x = false ∨ x ∈ reg.diskNamesToDelete ++ pre) ∧
      (d.validate env reg).2.diskNamesToDelete = reg.diskNamesToDelete ++ pre ∧
      (d.validate env reg).2.instanceNamesToDelete = reg.instanceNamesToDelete) ∨
    (∃ pre x post, (validateDisks env d.Disks reg.diskNamesToDelete).1 = none ∧
      d.Instances = pre ++ x :: post ∧
      (validateInstances env pre reg.instanceNamesToDelete).1 = none ∧
      (env.instanceExists x = false ∨ x ∈ reg.instanceNamesToDelete ++ pre) ∧
      (d.validate env reg).2.diskNamesToDelete = reg.diskNamesToDelete ++ d.Disks ∧
      (d.validate env reg).2.instanceNamesToDelete = reg.instanceNamesToDelete ++ pre) := by
  rw [validate_eq] at h ⊢
  split at h
  · rename_i hd
    left
    obtain ⟨pre, x, post, hl, hp, hr, hx⟩ := validateDisks_fail _ _ _ _ h
    refine ⟨pre, x, post, hl, hp, ?_, ?_, ?_⟩
    · rcases hx with ⟨a, _⟩ | ⟨_, a, _⟩
      · exact Or.inl a
      · exact Or.inr a
    · rw [if_pos hd]; exact hr
    · rw [if_pos hd]
  · rename_i hd
    right
    obtain ⟨pre, x, post, hl, hp, hr, hx⟩ := validateInstances_fail _ _ _ _ h
    refine ⟨pre, x, post, not_not.mp hd, hl, hp, ?_, ?_, ?_⟩
    · rcases hx with ⟨a, _⟩ | ⟨_, a, _⟩
      · exact Or.inl a
      · exact Or.inr a
    · rw [if_neg hd, validateDisks_ok _ _ _ (not_not.mp hd)]
    · rw [if_neg hd]; exact hr

theorem validate_no_rollback_witness :
    (∃ pre x post, ["d1", "d2"] = pre ++ x :: post ∧
      (validateDisks sampleEnv pre ["d0"]).1 = none ∧
      (sampleEnv.diskExists x = false ∨ x ∈ ["d0"] ++ pre) ∧
      (DeleteResources.validate sampleEnv ⟨["a", "zz", "b"], ["d1", "d2"], []⟩
        ⟨["d0"], []⟩).2.diskNamesToDelete = ["d0"] ++ pre ∧
      (DeleteResources.validate sampleEnv ⟨["a", "zz", "b"], ["d1", "d2"], []⟩
        ⟨["d0"], []⟩).2.instanceNamesToDelete = []) ∨
    (∃ pre x post, (validateDisks sampleEnv ["d1", "d2"] ["d0"]).1 = none ∧
      ["a", "zz", "b"] = pre ++ x :: post ∧
      (validateInstances sampleEnv pre []).1 = none ∧
      (sampleEnv.instanceExists x = false ∨ x ∈ [] ++ pre) ∧
      (DeleteResources.validate sampleEnv ⟨["a", "zz", "b"], ["d1", "d2"], []⟩
        ⟨["d0"], []⟩).2.diskNamesToDelete = ["d0"] ++ ["d1", "d2"] ∧
      (DeleteResources.validate sampleEnv ⟨["a", "zz", "b"], ["d1", "d2"], []⟩
        ⟨["d0"], []⟩).2.instanceNamesToDelete = [] ++ pre) :=
  validate_no_rollback sampleEnv ⟨["a", "zz", "b"], ["d1", "d2"], []⟩ ⟨["d0"], []⟩
    (instanceNotFound "zz") (by decide)

/-- C5 as stated fails: a step with no disks and no instances validates
successfully any number of times. -/
theorem validate_twice_empty_step :
    (DeleteResources.validate sampleEnv ⟨[], [], ["img"]⟩ ⟨[], []⟩).1 = none ∧
    (DeleteResources.validate sampleEnv ⟨[], [], ["img"]⟩
      (DeleteResources.validate sampleEnv ⟨[], [], ["img"]⟩ ⟨[], []⟩).2).1 = none :=
  ⟨by decide, by decide⟩

/-- C5, amended: for a step that lists at least one disk or instance and for
which validate has succeeded once, a second validate of the same step against
the updated registries fails with a `DuplicateSchedule` error and leaves the
registries unchanged. -/
theorem validate_twice (env : Env) (d : DeleteResources) (reg : Registry)
    (h : (d.validate env reg).1 = none) (hne : d.Disks ≠ [] ∨ d.Instances ≠ []) :
    ∃ e, d.validate env (d.validate env reg).2 = (some e, (d.validate env reg).2) ∧
      DuplicateSchedule env e := by
  have hv := h
  rw [validate_eq] at hv
  split at hv
  · rename_i hd; exact absurd hv hd
  rename_i hd
  have hd := not_not.mp hd
  have hdo := validateDisks_ok _ _ _ hd
  have hio := validateInstances_ok _ _ _ hv
  have hreg : (d.validate env reg).2 =
      ⟨reg.diskNamesToDelete ++ d.Disks, reg.instanceNamesToDelete ++ d.Instances⟩ := by
    rw [validate_eq, hdo, hio]; simp
  rw [hreg]
  have hD := (validateDisks_none_iff _ _ _).mp hd
  have hI := (validateInstances_none_iff _ _ _).mp hv
  rw [validate_eq]
  cases hdl : d.Disks with
  | cons x rest =>
    have hx : env.diskExists x = true := hD.1 x (by simp [hdl])
    have : validateDisks env (x :: rest) (reg.diskNamesToDelete ++ x :: rest) =
        (some ("error scheduling disk for deletion: " ++
          env.addError (reg.diskNamesToDelete ++ x :: rest) x),
          reg.diskNamesToDelete ++ x :: rest) := by
      rw [validateDisks_eq, checkLoop_cons]
      simp [hx]
    simp only [this]
    exact ⟨_, by simp, reg.diskNamesToDelete ++ x :: rest, x, Or.inl rfl⟩
  | nil =>
    have hin : d.Instances ≠ [] := hne.resolve_left (fun h => h hdl)
    cases hil : d.Instances with
    | nil => exact absurd hil hin
    | cons x rest =>
      have hx : env.instanceExists x = true := hI.1 x (by simp [hil])
      have : validateInstances env (x :: rest) (reg.instanceNamesToDelete ++ x :: rest) =
          (some ("error scheduling instance for deletion: " ++
            env.addError (reg.instanceNamesToDelete ++ x :: rest) x),
            reg.instanceNamesToDelete ++ x :: rest) := by
        rw [validateInstances_eq, checkLoop_cons]
        simp [hx]
      simp only [this, validateDisks]
      exact ⟨_, by simp, reg.instanceNamesToDelete ++ x :: rest, x, Or.inr rfl⟩

theorem validate_twice_witness :
    ∃ e, DeleteResources.validate sampleEnv ⟨["a"], ["d1"], []⟩
        (DeleteResources.validate sampleEnv ⟨["a"], ["d1"], []⟩ ⟨[], []⟩).2 =
        (some e, (DeleteResources.validate sampleEnv ⟨["a"], ["d1"], []⟩ ⟨[], []⟩).2) ∧
      DuplicateSchedule sampleEnv e :=
  validate_twice sampleEnv ⟨["a"], ["d1"], []⟩ ⟨[], []⟩ (by decide) (Or.inl (by decide))

theorem waitValidateLoop_eq (env : Env) (s : List String) :
    waitValidateLoop env s =
      (s.find? (fun i => !env.instanceExists i)).map waitInstanceNotFound := by
  induction s with
  | nil => rfl
  | cons x rest ih =>
    simp only [waitValidateLoop, List.find?_cons]
    cases hx : env.instanceExists x
    · simp [waitInstanceNotFound]
    · simpa using ih

/-- C6: `WaitForInstancesStopped.validate` returns nil exactly when every listed
instance exists; otherwise its error is the not-found error naming the first
listed instance that does not exist; and it leaves both registries as they
were. -/
theorem wait_validate_spec (env : Env) (s : WaitForInstancesStopped) (reg : Registry) :
    ((WaitForInstancesStopped.validate env s reg).1 = none ↔
      ∀ x ∈ s, env.instanceExists x = true) ∧
    (WaitForInstancesStopped.validate env s reg).1 =
      (s.find? (fun i => !env.instanceExists i)).map waitInstanceNotFound ∧
    (∀ pre x post, s = pre ++ x :: post → (∀ y ∈ pre, env.instanceExists y = true) →
      env.instanceExists x = false →
      (WaitForInstancesStopped.validate env s reg).1 = some (waitInstanceNotFound x)) ∧
    (WaitForInstancesStopped.validate env s reg).2 = reg := by
  refine ⟨?_, ?_, ?_, rfl⟩
  · simp [WaitForInstancesStopped.validate, waitValidateLoop_eq]
  · simp [WaitForInstancesStopped.validate, waitValidateLoop_eq]
  · intro pre x post hs hp hx
    simp only [WaitForInstancesStopped.validate, waitValidateLoop_eq, hs]
    rw [List.find?_append]
    have : List.find? (fun i => !env.instanceExists i) pre = none := by
      simp only [List.find?_eq_none]
      intro y hy
      simp [hp y hy]
    simp [this, hx]

theorem wait_validate_spec_witness :
    WaitForInstancesStopped.validate sampleEnv ["a", "zz", "yy"] ⟨["d1"], ["a"]⟩ =
      (some (waitInstanceNotFound "zz"), ⟨["d1"], ["a"]⟩) :=
  Prod.ext
    ((wait_validate_spec sampleEnv ["a", "zz", "yy"] ⟨["d1"], ["a"]⟩).2.2.1
      ["a"] "zz" ["yy"] rfl (by decide) (by decide))
    (wait_validate_spec sampleEnv ["a", "zz", "yy"] ⟨["d1"], ["a"]⟩).2.2.2

/-! ## Part 2: theorems about run -/

theorem step_sound (prog : Program) (s s1 : State) (a : Action)
    (h : step prog s a = some s1) : Step prog s s1 := by
  cases a with
  | main =>
    simp only [step] at h
    split at h
    · rename_i j hpc
      split at h
      · rename_i t ht
        cases h
        exact Step.spawn j t hpc ht
      · rename_i ht
        cases h
        exact Step.loopExit j hpc ht
    · rename_i hpc
      cases h
      exact Step.spawnWaiter hpc
    · rename_i hpc
      split at h
      · cases h
      · rename_i hno
        cases h
        simp only [Bool.or_eq_true, not_or, Bool.not_eq_true] at hno
        exact Step.park hpc hno.1 hno.2
    · cases h
  | go i =>
    simp only [step] at h
    split at h
    · rename_i t hg; cases h; exact Step.invoke i t hg
    · rename_i t hg; cases h; exact Step.ret i t hg
    · rename_i t hg
      split at h
      · rename_i hr; cases h; exact Step.finishOk i t hg hr
      · rename_i err hr
        split at h
        · rename_i hpc
          cases h
          exact Step.handErr i t err hg hr hpc
        · rename_i hpc
          cases h
          exact Step.beginSend i t err hg hr (fun e => hpc e)
    · rename_i t hg; cases h; exact Step.finishSent i t hg
    · rename_i hg
      split at h
      · rename_i hwg; cases h; exact Step.wake i hg hwg
      · cases h
    · rename_i hg
      split at h
      · rename_i hpc
        simp only [received] at h
        split at h
        · rename_i hlt; cases h; exact Step.handNilNext i hg hpc hlt
        · rename_i hlt; cases h; exact Step.handNilLast i hg hpc hlt
      · rename_i hpc
        cases h
        exact Step.waiterSend i hg (fun e => hpc e)
    · cases h
  | recv i =>
    simp only [step] at h
    split at h
    · rename_i hpc
      split at h
      · rename_i t ch err hg
        split at h
        · rename_i hch
          subst hch
          cases h
          exact Step.recvErr i t err hpc hg
        · cases h
      · rename_i ch hg
        split at h
        · rename_i hch
          subst hch
          simp only [received] at h
          split at h
          · rename_i hlt; cases h; exact Step.recvNilNext i hpc hg hlt
          · rename_i hlt; cases h; exact Step.recvNilLast i hpc hg hlt
        · cases h
      · cases h
    · cases h
  | ctxDone =>
    simp only [step] at h
    split at h
    · rename_i hpc
      split at h
      · rename_i hc; cases h; exact Step.ctxDone hpc hc
      · cases h
    · cases h
  | cancel =>
    simp only [step] at h
    split at h
    · cases h
    · rename_i hc
      split at h
      · rename_i hpc
        cases h
        exact Step.cancelParked (by simpa using hc) hpc
      · rename_i hpc
        cases h
        exact Step.cancel (by simpa using hc) (fun e => hpc e)

theorem sum_map_set {α : Type} (f : α → Nat) (l : List α) (i : Nat) (g g1 : α)
    (h : l[i]? = some g) :
    ((l.set i g1).map f).sum + f g = (l.map f).sum + f g1 := by
  induction l generalizing i with
  | nil => simp at h
  | cons x xs ih =>
    cases i with
    | zero =>
      simp only [List.getElem?_cons_zero, Option.some.injEq] at h
      subst h
      simp only [List.set_cons_zero, List.map_cons, List.sum_cons]
      omega
    | succ n =>
      simp only [List.getElem?_cons_succ] at h
      have := ih n h
      simp only [List.set_cons_succ, List.map_cons, List.sum_cons]
      omega

theorem restTodo_succ (prog : Program) (k : Nat) (h : k < prog.length) :
    restTodo prog k = 6 * (prog.getD k []).length + 7 + restTodo prog (k + 1) := by
  unfold restTodo
  rw [List.drop_eq_getElem_cons h]
  simp only [List.map_cons, List.sum_cons, List.getD_eq_getElem?_getD,
    List.getElem?_eq_getElem h, Option.getD_some]

/-- Every step lowers the bound `todo`: executions are finite. -/
theorem step_todo (prog : Program) (s s1 : State) (h : Step prog s s1) :
    s1.todo prog < s.todo prog := by
  cases h with
  | spawn j t hpc ht =>
    have hj : j < (prog.getD s.phase []).length := by
      by_contra hcon
      rw [List.getElem?_eq_none (by omega)] at ht
      cases ht
    simp only [State.todo, hpc, mainTodo, List.map_append, List.sum_append, List.map_cons,
      List.map_nil, List.sum_cons, List.sum_nil, Goroutine.todo]
    omega
  | loopExit j hpc ht =>
    simp only [State.todo, hpc, mainTodo]
    omega
  | spawnWaiter hpc =>
    simp only [State.todo, hpc, mainTodo, List.map_append, List.sum_append, List.map_cons,
      List.map_nil, List.sum_cons, List.sum_nil, Goroutine.todo]
    omega
  | park hpc hno hc =>
    simp only [State.todo, hpc, mainTodo]
    omega
  | invoke i t hg =>
    have := sum_map_set Goroutine.todo s.gors i _ (.worker t .calling) hg
    simp only [State.todo, Goroutine.todo] at this ⊢
    omega
  | ret i t hg =>
    have := sum_map_set Goroutine.todo s.gors i _ (.worker t .returned) hg
    simp only [State.todo, Goroutine.todo] at this ⊢
    omega
  | finishOk i t hg hr =>
    have := sum_map_set Goroutine.todo s.gors i _ (.worker t .finished) hg
    simp only [State.todo, Goroutine.todo] at this ⊢
    omega
  | beginSend i t err hg hr hpc =>
    have := sum_map_set Goroutine.todo s.gors i _ (.worker t (.sending s.phase err)) hg
    simp only [State.todo, Goroutine.todo] at this ⊢
    omega
  | handErr i t err hg hr hpc =>
    have := sum_map_set Goroutine.todo s.gors i _ (.worker t .sent) hg
    simp only [State.todo, Goroutine.todo, hpc, mainTodo] at this ⊢
    omega
  | finishSent i t hg =>
    have := sum_map_set Goroutine.todo s.gors i _ (.worker t .finished) hg
    simp only [State.todo, Goroutine.todo] at this ⊢
    omega
  | wake i hg hwg =>
    have := sum_map_set Goroutine.todo s.gors i _ (.waiter .woke) hg
    simp only [State.todo, Goroutine.todo] at this ⊢
    omega
  | waiterSend i hg hpc =>
    have := sum_map_set Goroutine.todo s.gors i _ (.waiter (.sending s.phase)) hg
    simp only [State.todo, Goroutine.todo] at this ⊢
    omega
  | handNilNext i hg hpc hlt =>
    have := sum_map_set Goroutine.todo s.gors i _ (.waiter .done) hg
    have h2 := restTodo_succ prog (s.phase + 1) hlt
    simp only [State.todo, Goroutine.todo, hpc, mainTodo] at this ⊢
    omega
  | handNilLast i hg hpc hlt =>
    have := sum_map_set Goroutine.todo s.gors i _ (.waiter .done) hg
    simp only [State.todo, Goroutine.todo, hpc, mainTodo] at this ⊢
    omega
  | recvErr i t err hpc hg =>
    have := sum_map_set Goroutine.todo s.gors i _ (.worker t .sent) hg
    simp only [State.todo, Goroutine.todo, hpc, mainTodo] at this ⊢
    omega
  | recvNilNext i hpc hg hlt =>
    have := sum_map_set Goroutine.todo s.gors i _ (.waiter .done) hg
    have h2 := restTodo_succ prog (s.phase + 1) hlt
    simp only [State.todo, Goroutine.todo, hpc, mainTodo] at this ⊢
    omega
  | recvNilLast i hpc hg hlt =>
    have := sum_map_set Goroutine.todo s.gors i _ (.waiter .done) hg
    simp only [State.todo, Goroutine.todo, hpc, mainTodo] at this ⊢
    omega
  | ctxDone hpc hc =>
    simp only [State.todo, hpc, mainTodo]
    omega
  | cancel hc hpc =>
    simp only [State.todo, hc]
    simp
  | cancelParked hc hpc =>
    simp only [State.todo, hc, hpc, mainTodo]
    simp only [Bool.false_eq_true, if_false, if_true]
    omega

theorem map_kind_set (l : List Goroutine) (i : Nat) (g g1 : Goroutine)
    (h : l[i]? = some g) (hk : g1.kind = g.kind) :
    (l.set i g1).map Goroutine.kind = l.map Goroutine.kind := by
  induction l generalizing i with
  | nil => simp
  | cons x xs ih =>
    cases i with
    | zero =>
      simp only [List.getElem?_cons_zero, Option.some.injEq] at h
      subst h
      simp [hk]
    | succ n =>
      simp only [List.getElem?_cons_succ] at h
      simp [ih n h]

theorem oldShape_succ (prog : Program) (k : Nat) (h : k < prog.length) :
    oldShape prog (k + 1) = oldShape prog k ++ ((prog.getD k []).map some ++ [none]) := by
  unfold oldShape
  rw [List.take_succ, List.flatMap_append]
  simp [List.getD_eq_getElem?_getD, List.getElem?_eq_getElem h]

theorem inv_init (prog : Program) : Inv prog State.init := by
  constructor <;> simp [State.init, oldShape, curShape]

theorem inv_shape (prog : Program) (s s1 : State) (h : Inv prog s) (hs : Step prog s s1) :
    s1.gors.map Goroutine.kind = oldShape prog s1.phase ++ curShape prog s1.phase s1.pc := by
  have hsh := h.shape
  cases hs with
  | spawn j t hpc ht =>
    simp only [List.map_append, hsh, hpc, curShape, List.take_succ, ht, List.append_assoc,
      List.map_cons, List.map_nil, Goroutine.kind, Option.toList]
  | loopExit j hpc ht =>
    have hj : (prog.getD s.phase []).length ≤ j := by
      by_contra hcon
      rw [List.getElem?_eq_getElem (by omega)] at ht
      cases ht
    simp only [hsh, hpc, curShape, List.take_of_length_le hj]
  | spawnWaiter hpc =>
    simp only [List.map_append, hsh, hpc, curShape, List.append_assoc,
      List.map_cons, List.map_nil, Goroutine.kind]
  | park hpc hno hc =>
    simp only [hsh, hpc, curShape]
  | invoke i t hg | ret i t hg | finishOk i t hg hr | beginSend i t err hg hr hpc
  | finishSent i t hg | wake i hg hwg | waiterSend i hg hpc =>
    exact (map_kind_set _ _ _ _ hg (by rfl)).trans hsh
  | recvErr i t err hpc hg =>
    simp only [hpc, curShape] at hsh ⊢
    exact (map_kind_set _ _ _ _ hg (by rfl)).trans hsh
  | handErr i t err hg hr hpc =>
    simp only [hpc, curShape] at hsh ⊢
    exact (map_kind_set _ _ _ _ hg (by rfl)).trans hsh
  | recvNilNext i hpc hg hlt =>
    simp only [hpc, curShape, oldShape_succ prog s.phase (by omega), List.take_zero,
      List.map_nil, List.append_nil] at hsh ⊢
    exact (map_kind_set _ _ _ _ hg (by rfl)).trans hsh
  | handNilNext i hg hpc hlt =>
    simp only [hpc, curShape, oldShape_succ prog s.phase (by omega), List.take_zero,
      List.map_nil, List.append_nil] at hsh ⊢
    exact (map_kind_set _ _ _ _ hg (by rfl)).trans hsh
  | recvNilLast i hpc hg hlt =>
    simp only [hpc, curShape] at hsh ⊢
    exact (map_kind_set _ _ _ _ hg (by rfl)).trans hsh
  | handNilLast i hg hpc hlt =>
    simp only [hpc, curShape] at hsh ⊢
    exact (map_kind_set _ _ _ _ hg (by rfl)).trans hsh
  | ctxDone hpc hc =>
    simp only [hsh, hpc, curShape]
  | cancel hc hpc => exact hsh
  | cancelParked hc hpc =>
    simp only [hsh, hpc, curShape]

theorem getElem?_set_cases {α : Type} (l : List α) (k i : Nat) (g1 g : α)
    (h : (l.set k g1)[i]? = some g) :
    (i = k ∧ g = g1) ∨ (i ≠ k ∧ l[i]? = some g) := by
  rw [List.getElem?_set] at h
  by_cases hik : k = i
  · subst hik
    simp only [if_true] at h
    split at h
    · exact Or.inl ⟨rfl, (Option.some.inj h).symm⟩
    · cases h
  · rw [if_neg hik] at h
    exact Or.inr ⟨fun e => hik e.symm, h⟩

theorem forall_mem_set {α : Type} (P : α → Prop) (l : List α) (k : Nat) (g1 : α)
    (h : ∀ g ∈ l, P g) (h1 : P g1) : ∀ g ∈ l.set k g1, P g := by
  intro g hg
  rcases List.mem_or_eq_of_mem_set hg with hm | rfl
  · exact h g hm
  · exact h1

theorem mem_of_getElem? {α : Type} (l : List α) (k : Nat) (g : α) (h : l[k]? = some g) :
    g ∈ l :=
  List.mem_iff_getElem?.mpr ⟨k, h⟩

theorem lt_of_getElem? {α : Type} (l : List α) (k : Nat) (g : α) (h : l[k]? = some g) :
    k < l.length := by
  by_contra hcon
  rw [List.getElem?_eq_none (by omega)] at h
  cases h

theorem mem_set_self {α : Type} (l : List α) (k : Nat) (g g1 : α) (h : l[k]? = some g) :
    g1 ∈ l.set k g1 :=
  List.mem_iff_getElem?.mpr ⟨k, List.getElem?_set_self (lt_of_getElem? l k g h)⟩

theorem mem_set_or {α : Type} (l : List α) (k : Nat) (g0 g1 g : α)
    (h : l[k]? = some g0) (hg : g ∈ l) : g ∈ l.set k g1 ∨ g = g0 := by
  obtain ⟨n, hn⟩ := List.mem_iff_getElem?.mp hg
  by_cases hnk : k = n
  · subst hnk
    rw [h] at hn
    exact Or.inr (Option.some.inj hn).symm
  · exact Or.inl (List.mem_iff_getElem?.mpr ⟨n, by rw [List.getElem?_set_ne hnk]; exact hn⟩)

theorem countP_set_eq {α : Type} (p : α → Bool) (l : List α) (k : Nat) (g g1 : α)
    (h : l[k]? = some g) :
    (l.set k g1).countP p + (if p g = true then 1 else 0) =
      l.countP p + (if p g1 = true then 1 else 0) := by
  induction l generalizing k with
  | nil => simp at h
  | cons x xs ih =>
    cases k with
    | zero =>
      simp only [List.getElem?_cons_zero, Option.some.injEq] at h
      subst h
      simp only [List.set_cons_zero, List.countP_cons]
      omega
    | succ n =>
      simp only [List.getElem?_cons_succ] at h
      have := ih n h
      simp only [List.set_cons_succ, List.countP_cons]
      omega

/-- The number of goroutines started so far. -/
theorem inv_length (prog : Program) (s : State) (h : Inv prog s) :
    s.gors.length = (oldShape prog s.phase).length + (curShape prog s.phase s.pc).length := by
  have := congrArg List.length h.shape
  simpa using this

/-- A `wg.Wait()` goroutine of the current phase exists only once `main` is at
the select, and it is the last goroutine started. -/
theorem waiter_current (prog : Program) (s : State) (h : Inv prog s) (i : Nat) (st : WaiterSt)
    (hg : s.gors[i]? = some (.waiter st)) (hi : ¬ i < (oldShape prog s.phase).length) :
    s.pc.joined = true ∧ i + 1 = s.gors.length := by
  have hlen := inv_length prog s h
  have hk : (s.gors.map Goroutine.kind)[i]? = some none := by
    rw [List.getElem?_map, hg]; rfl
  rw [h.shape, List.getElem?_append_right (by omega)] at hk
  have key : ∀ (l : List Task) (n : Nat), (l.map some)[n]? ≠ some none := by
    intro l n hn
    rw [List.getElem?_map] at hn
    cases hl : l[n]? <;> simp [hl] at hn
  cases hpc : s.pc with
  | spawn j =>
    rw [hpc] at hk
    exact absurd hk (key _ _)
  | spawnWaiter =>
    rw [hpc] at hk
    exact absurd hk (key _ _)
  | select =>
    rw [hpc] at hk hlen
    simp only [curShape] at hk hlen
    refine ⟨rfl, ?_⟩
    by_cases hlt : i - (oldShape prog s.phase).length < ((prog.getD s.phase []).map some).length
    · rw [List.getElem?_append_left hlt] at hk
      exact absurd hk (key _ _)
    · have := lt_of_getElem? _ _ _ hk
      simp only [List.length_append, List.length_map, List.length_singleton] at this hlt hlen
      omega
  | parked =>
    rw [hpc] at hk hlen
    simp only [curShape] at hk hlen
    refine ⟨rfl, ?_⟩
    by_cases hlt : i - (oldShape prog s.phase).length < ((prog.getD s.phase []).map some).length
    · rw [List.getElem?_append_left hlt] at hk
      exact absurd hk (key _ _)
    · have := lt_of_getElem? _ _ _ hk
      simp only [List.length_append, List.length_map, List.length_singleton] at this hlt hlen
      omega
  | returned r =>
    rw [hpc] at hk hlen
    simp only [curShape] at hk hlen
    refine ⟨rfl, ?_⟩
    by_cases hlt : i - (oldShape prog s.phase).length < ((prog.getD s.phase []).map some).length
    · rw [List.getElem?_append_left hlt] at hk
      exact absurd hk (key _ _)
    · have := lt_of_getElem? _ _ _ hk
      simp only [List.length_append, List.length_map, List.length_singleton] at this hlt hlen
      omega

/-- A goroutine that is not quiet belongs to the current phase. -/
theorem not_old (prog : Program) (s : State) (h : Inv prog s) (i : Nat) (g : Goroutine)
    (hg : s.gors[i]? = some g) (hq : g.quiet = false) :
    ¬ i < (oldShape prog s.phase).length := by
  intro hi
  rw [h.old i g hg hi] at hq
  cases hq

/-- When the `nil` of the `wg.Wait()` goroutine is received, every goroutine
started so far has run to its end without error. -/
theorem all_quiet_at_nil (prog : Program) (s : State) (h : Inv prog s) (i : Nat)
    (st : WaiterSt) (hpc : ∀ r, s.pc ≠ .returned r) (hg : s.gors[i]? = some (.waiter st))
    (hst : (Goroutine.waiter st).awake = true) :
    ∀ g ∈ s.gors.set i (.waiter .done), g.quiet = true := by
  have hwg := (h.awake _ (mem_of_getElem? _ _ _ hg) hst).1
  have hcount : s.gors.countP Goroutine.unfinished = 0 := by
    have := h.wg
    omega
  have hnq : (Goroutine.waiter st).quiet = false := by
    cases st <;> first | rfl | cases hst
  have hi := waiter_current prog s h i _ hg (not_old prog s h i _ hg hnq)
  intro g hgm
  obtain ⟨k, hk⟩ := List.mem_iff_getElem?.mp hgm
  rcases getElem?_set_cases _ _ _ _ _ hk with ⟨_, rfl⟩ | ⟨hne, hk⟩
  · rfl
  · have hmem := mem_of_getElem? _ _ _ hk
    cases g with
    | waiter st1 =>
      by_cases hold : k < (oldShape prog s.phase).length
      · exact h.old k _ hk hold
      · have := (waiter_current prog s h k st1 hk hold).2
        omega
    | worker t st1 =>
      have hun : Goroutine.unfinished (.worker t st1) = false := by
        by_contra hcon
        have : 0 < s.gors.countP Goroutine.unfinished :=
          List.countP_pos_iff.mpr ⟨_, hmem, by simpa using hcon⟩
        omega
      cases st1 <;> simp only [Goroutine.unfinished] at hun <;> try cases hun
      cases hr : t.result with
      | none => simp [Goroutine.quiet, hr]
      | some e =>
        have := (h.errs _ hmem (by simp [Goroutine.reported, hr])).2
        exact absurd this (hpc _)

theorem quiet_chanOk (g : Goroutine) (p : Nat) (h : g.quiet = true) : g.chanOk p := by
  cases g with
  | worker t st => cases st <;> simp_all [Goroutine.quiet, Goroutine.chanOk]
  | waiter st => cases st <;> simp_all [Goroutine.quiet, Goroutine.chanOk]

theorem quiet_not_awake (g : Goroutine) (h : g.quiet = true) : g.awake = false := by
  cases g with
  | worker t st => cases st <;> simp_all [Goroutine.quiet, Goroutine.awake]
  | waiter st => cases st <;> simp_all [Goroutine.quiet, Goroutine.awake]

theorem quiet_not_reported (g : Goroutine) (h : g.quiet = true) : g.reported = false := by
  cases g with
  | worker t st => cases st <;> simp_all [Goroutine.quiet, Goroutine.reported]
  | waiter st => cases st <;> simp_all [Goroutine.quiet, Goroutine.reported]

theorem old_append (prog : Program) (s : State) (h : Inv prog s) (x : Goroutine) :
    ∀ i g, (s.gors ++ [x])[i]? = some g → i < (oldShape prog s.phase).length →
      g.quiet = true := by
  intro i g hg hi
  have hlen := inv_length prog s h
  rw [List.getElem?_append_left (by omega)] at hg
  exact h.old i g hg hi

theorem old_set (prog : Program) (s : State) (h : Inv prog s) (k : Nat) (g0 g1 : Goroutine)
    (hg0 : s.gors[k]? = some g0) (hq : g0.quiet = false) :
    ∀ i g, (s.gors.set k g1)[i]? = some g → i < (oldShape prog s.phase).length →
      g.quiet = true := by
  intro i g hg hi
  rcases getElem?_set_cases _ _ _ _ _ hg with ⟨rfl, _⟩ | ⟨_, hg⟩
  · exact absurd hi (not_old prog s h i g0 hg0 hq)
  · exact h.old i g hg hi

theorem inv_old (prog : Program) (s s1 : State) (h : Inv prog s) (hs : Step prog s s1) :
    ∀ i g, s1.gors[i]? = some g → i < (oldShape prog s1.phase).length → g.quiet = true := by
  cases hs with
  | spawn j t hpc ht => exact old_append prog s h _
  | loopExit j hpc ht => exact h.old
  | spawnWaiter hpc => exact old_append prog s h _
  | park hpc hno hc => exact h.old
  | invoke i t hg => exact old_set prog s h i _ _ hg rfl
  | ret i t hg => exact old_set prog s h i _ _ hg rfl
  | finishOk i t hg hr => exact old_set prog s h i _ _ hg rfl
  | beginSend i t err hg hr hpc => exact old_set prog s h i _ _ hg rfl
  | handErr i t err hg hr hpc => exact old_set prog s h i _ _ hg rfl
  | finishSent i t hg => exact old_set prog s h i _ _ hg rfl
  | wake i hg hwg => exact old_set prog s h i _ _ hg rfl
  | waiterSend i hg hpc => exact old_set prog s h i _ _ hg rfl
  | recvErr i t err hpc hg => exact old_set prog s h i _ _ hg rfl
  | recvNilNext i hpc hg hlt =>
    intro k g hk _
    exact all_quiet_at_nil prog s h i _ (by rw [hpc]; intro r hr; cases hr) hg rfl g
      (mem_of_getElem? _ _ _ hk)
  | handNilNext i hg hpc hlt =>
    intro k g hk _
    exact all_quiet_at_nil prog s h i _ (by rw [hpc]; intro r hr; cases hr) hg rfl g
      (mem_of_getElem? _ _ _ hk)
  | recvNilLast i hpc hg hlt => exact old_set prog s h i _ _ hg rfl
  | handNilLast i hg hpc hlt => exact old_set prog s h i _ _ hg rfl
  | ctxDone hpc hc => exact h.old
  | cancel hc hpc => exact h.old
  | cancelParked hc hpc => exact h.old

theorem inv_wg (prog : Program) (s s1 : State) (h : Inv prog s) (hs : Step prog s s1) :
    s1.wg = (s1.gors.countP Goroutine.unfinished : Nat) := by
  have hwg := h.wg
  cases hs with
  | spawn j t hpc ht =>
    simp only [List.countP_append, List.countP_cons, List.countP_nil, Goroutine.unfinished]
    simp only [hwg]
    push_cast
    simp
  | loopExit j hpc ht => exact hwg
  | spawnWaiter hpc =>
    simp only [List.countP_append, List.countP_cons, List.countP_nil, Goroutine.unfinished]
    simp [hwg]
  | park hpc hno hc => exact hwg
  | invoke i t hg =>
    have := countP_set_eq Goroutine.unfinished s.gors i _ (.worker t .calling) hg
    simp only [Goroutine.unfinished] at this ⊢
    omega
  | ret i t hg =>
    have := countP_set_eq Goroutine.unfinished s.gors i _ (.worker t .returned) hg
    simp only [Goroutine.unfinished] at this ⊢
    omega
  | finishOk i t hg hr =>
    have := countP_set_eq Goroutine.unfinished s.gors i _ (.worker t .finished) hg
    simp only [Goroutine.unfinished] at this ⊢
    simp only [if_true, Bool.false_eq_true, if_false] at this
    omega
  | beginSend i t err hg hr hpc =>
    have := countP_set_eq Goroutine.unfinished s.gors i _ (.worker t (.sending s.phase err)) hg
    simp only [Goroutine.unfinished] at this ⊢
    omega
  | handErr i t err hg hr hpc =>
    have := countP_set_eq Goroutine.unfinished s.gors i _ (.worker t .sent) hg
    simp only [Goroutine.unfinished] at this ⊢
    omega
  | finishSent i t hg =>
    have := countP_set_eq Goroutine.unfinished s.gors i _ (.worker t .finished) hg
    simp only [Goroutine.unfinished] at this ⊢
    simp only [if_true, Bool.false_eq_true, if_false] at this
    omega
  | wake i hg hwg0 =>
    have := countP_set_eq Goroutine.unfinished s.gors i _ (.waiter .woke) hg
    simp only [Goroutine.unfinished] at this ⊢
    omega
  | waiterSend i hg hpc =>
    have := countP_set_eq Goroutine.unfinished s.gors i _ (.waiter (.sending s.phase)) hg
    simp only [Goroutine.unfinished] at this ⊢
    omega
  | recvErr i t err hpc hg =>
    have := countP_set_eq Goroutine.unfinished s.gors i _ (.worker t .sent) hg
    simp only [Goroutine.unfinished] at this ⊢
    omega
  | recvNilNext i hpc hg hlt =>
    have := countP_set_eq Goroutine.unfinished s.gors i _ (.waiter .done) hg
    simp only [Goroutine.unfinished] at this ⊢
    omega
  | handNilNext i hg hpc hlt =>
    have := countP_set_eq Goroutine.unfinished s.gors i _ (.waiter .done) hg
    simp only [Goroutine.unfinished] at this ⊢
    omega
  | recvNilLast i hpc hg hlt =>
    have := countP_set_eq Goroutine.unfinished s.gors i _ (.waiter .done) hg
    simp only [Goroutine.unfinished] at this ⊢
    omega
  | handNilLast i hg hpc hlt =>
    have := countP_set_eq Goroutine.unfinished s.gors i _ (.waiter .done) hg
    simp only [Goroutine.unfinished] at this ⊢
    omega
  | ctxDone hpc hc => exact hwg
  | cancel hc hpc => exact hwg
  | cancelParked hc hpc => exact hwg

theorem chan_append (prog : Program) (s : State) (h : Inv prog s) (x : Goroutine)
    (hx : x.chanOk s.phase) : ∀ g ∈ s.gors ++ [x], g.chanOk s.phase := by
  intro g hg
  rcases List.mem_append.mp hg with hg | hg
  · exact h.chan g hg
  · rw [List.mem_singleton] at hg
    subst hg
    exact hx

theorem inv_chan (prog : Program) (s s1 : State) (h : Inv prog s) (hs : Step prog s s1) :
    ∀ g ∈ s1.gors, g.chanOk s1.phase := by
  cases hs with
  | spawn j t hpc ht => exact chan_append prog s h _ trivial
  | loopExit j hpc ht => exact h.chan
  | spawnWaiter hpc => exact chan_append prog s h _ trivial
  | park hpc hno hc => exact h.chan
  | invoke i t hg => exact forall_mem_set _ _ _ _ h.chan trivial
  | ret i t hg => exact forall_mem_set _ _ _ _ h.chan trivial
  | finishOk i t hg hr => exact forall_mem_set _ _ _ _ h.chan trivial
  | beginSend i t err hg hr hpc => exact forall_mem_set _ _ _ _ h.chan ⟨rfl, hr⟩
  | handErr i t err hg hr hpc => exact forall_mem_set _ _ _ _ h.chan trivial
  | finishSent i t hg => exact forall_mem_set _ _ _ _ h.chan trivial
  | wake i hg hwg => exact forall_mem_set _ _ _ _ h.chan trivial
  | waiterSend i hg hpc => exact forall_mem_set _ _ _ _ h.chan rfl
  | recvErr i t err hpc hg => exact forall_mem_set _ _ _ _ h.chan trivial
  | recvNilNext i hpc hg hlt =>
    intro g hgm
    exact quiet_chanOk g _
      (all_quiet_at_nil prog s h i _ (by rw [hpc]; intro r hr; cases hr) hg rfl g hgm)
  | handNilNext i hg hpc hlt =>
    intro g hgm
    exact quiet_chanOk g _
      (all_quiet_at_nil prog s h i _ (by rw [hpc]; intro r hr; cases hr) hg rfl g hgm)
  | recvNilLast i hpc hg hlt => exact forall_mem_set _ _ _ _ h.chan trivial
  | handNilLast i hg hpc hlt => exact forall_mem_set _ _ _ _ h.chan trivial
  | ctxDone hpc hc => exact h.chan
  | cancel hc hpc => exact h.chan
  | cancelParked hc hpc => exact h.chan

/-- While `main` is still starting goroutines no `wg.Wait()` has returned. -/
theorem no_awake (prog : Program) (s : State) (h : Inv prog s) (hpc : s.pc.joined = false) :
    ∀ g ∈ s.gors, g.awake = false := by
  intro g hg
  by_contra hcon
  have := (h.awake g hg (by simpa using hcon)).2
  rw [hpc] at this
  cases this

theorem inv_awake (prog : Program) (s s1 : State) (h : Inv prog s) (hs : Step prog s s1) :
    ∀ g ∈ s1.gors, g.awake = true → s1.wg = 0 ∧ s1.pc.joined = true := by
  have hun : ∀ (i : Nat) (g0 : Goroutine), s.gors[i]? = some g0 → g0.unfinished = true →
      ∀ g ∈ s.gors, g.awake = false := by
    intro i g0 hg0 hu g hg
    by_contra hcon
    have h0 := (h.awake g hg (by simpa using hcon)).1
    have hp : 0 < s.gors.countP Goroutine.unfinished :=
      List.countP_pos_iff.mpr ⟨g0, mem_of_getElem? _ _ _ hg0, hu⟩
    have := h.wg
    omega
  cases hs with
  | spawn j t hpc ht =>
    intro g hg ha
    have hno := no_awake prog s h (by rw [hpc]; rfl)
    rcases List.mem_append.mp hg with hg | hg
    · rw [hno g hg] at ha; cases ha
    · rw [List.mem_singleton] at hg; subst hg; cases ha
  | loopExit j hpc ht =>
    intro g hg ha
    rw [no_awake prog s h (by rw [hpc]; rfl) g hg] at ha; cases ha
  | spawnWaiter hpc =>
    intro g hg ha
    have hno := no_awake prog s h (by rw [hpc]; rfl)
    rcases List.mem_append.mp hg with hg | hg
    · rw [hno g hg] at ha; cases ha
    · rw [List.mem_singleton] at hg; subst hg; cases ha
  | park hpc hno hc =>
    intro g hg ha
    exact ⟨(h.awake g hg ha).1, rfl⟩
  | invoke i t hg =>
    exact forall_mem_set _ _ _ _ h.awake (fun ha => by cases ha)
  | ret i t hg =>
    exact forall_mem_set _ _ _ _ h.awake (fun ha => by cases ha)
  | finishOk i t hg hr =>
    intro g hgm ha
    rcases List.mem_or_eq_of_mem_set hgm with hm | rfl
    · rw [hun i _ hg rfl g hm] at ha; cases ha
    · cases ha
  | beginSend i t err hg hr hpc =>
    exact forall_mem_set _ _ _ _ h.awake (fun ha => by cases ha)
  | handErr i t err hg hr hpc =>
    intro g hgm ha
    rcases List.mem_or_eq_of_mem_set hgm with hm | rfl
    · exact ⟨(h.awake g hm ha).1, rfl⟩
    · cases ha
  | finishSent i t hg =>
    intro g hgm ha
    rcases List.mem_or_eq_of_mem_set hgm with hm | rfl
    · rw [hun i _ hg rfl g hm] at ha; cases ha
    · cases ha
  | wake i hg hwg =>
    refine forall_mem_set _ _ _ _ h.awake (fun _ => ⟨hwg, ?_⟩)
    exact (waiter_current prog s h i _ hg (not_old prog s h i _ hg rfl)).1
  | waiterSend i hg hpc =>
    exact forall_mem_set _ _ _ _ h.awake
      (fun _ => h.awake (.waiter .woke) (mem_of_getElem? _ _ _ hg) rfl)
  | recvErr i t err hpc hg =>
    intro g hgm ha
    rcases List.mem_or_eq_of_mem_set hgm with hm | rfl
    · exact ⟨(h.awake g hm ha).1, rfl⟩
    · cases ha
  | recvNilNext i hpc hg hlt =>
    intro g hgm ha
    rw [quiet_not_awake g
      (all_quiet_at_nil prog s h i _ (by rw [hpc]; intro r hr; cases hr) hg rfl g hgm)] at ha
    cases ha
  | handNilNext i hg hpc hlt =>
    intro g hgm ha
    rw [quiet_not_awake g
      (all_quiet_at_nil prog s h i _ (by rw [hpc]; intro r hr; cases hr) hg rfl g hgm)] at ha
    cases ha
  | recvNilLast i hpc hg hlt =>
    intro g hgm ha
    rw [quiet_not_awake g
      (all_quiet_at_nil prog s h i _ (by rw [hpc]; intro r hr; cases hr) hg rfl g hgm)] at ha
    cases ha
  | handNilLast i hg hpc hlt =>
    intro g hgm ha
    rw [quiet_not_awake g
      (all_quiet_at_nil prog s h i _ (by rw [hpc]; intro r hr; cases hr) hg rfl g hgm)] at ha
    cases ha
  | ctxDone hpc hc =>
    intro g hg ha
    exact ⟨(h.awake g hg ha).1, rfl⟩
  | cancel hc hpc => exact h.awake
  | cancelParked hc hpc =>
    intro g hg ha
    exact ⟨(h.awake g hg ha).1, rfl⟩

/-- Before `main` returns no error has been received. -/
theorem no_reported (prog : Program) (s : State) (h : Inv prog s)
    (hpc : ∀ r, s.pc ≠ .returned r) : ∀ g ∈ s.gors, g.reported = false := by
  intro g hg
  by_contra hcon
  exact hpc _ (h.errs g hg (by simpa using hcon)).2

theorem inv_errs (prog : Program) (s s1 : State) (h : Inv prog s) (hs : Step prog s s1) :
    ∀ g ∈ s1.gors, g.reported = true → g.result ≠ none ∧ s1.pc = .returned g.result := by
  cases hs with
  | spawn j t hpc ht =>
    intro g hg ha
    have hno := no_reported prog s h (by rw [hpc]; intro r hr; cases hr)
    rcases List.mem_append.mp hg with hg | hg
    · rw [hno g hg] at ha; cases ha
    · rw [List.mem_singleton] at hg; subst hg; cases ha
  | loopExit j hpc ht =>
    intro g hg ha
    rw [no_reported prog s h (by rw [hpc]; intro r hr; cases hr) g hg] at ha; cases ha
  | spawnWaiter hpc =>
    intro g hg ha
    have hno := no_reported prog s h (by rw [hpc]; intro r hr; cases hr)
    rcases List.mem_append.mp hg with hg | hg
    · rw [hno g hg] at ha; cases ha
    · rw [List.mem_singleton] at hg; subst hg; cases ha
  | park hpc hno hc =>
    intro g hg ha
    rw [no_reported prog s h (by rw [hpc]; intro r hr; cases hr) g hg] at ha; cases ha
  | invoke i t hg => exact forall_mem_set _ _ _ _ h.errs (fun ha => by cases ha)
  | ret i t hg => exact forall_mem_set _ _ _ _ h.errs (fun ha => by cases ha)
  | finishOk i t hg hr =>
    exact forall_mem_set _ _ _ _ h.errs (fun ha => by simp [Goroutine.reported, hr] at ha)
  | beginSend i t err hg hr hpc =>
    exact forall_mem_set _ _ _ _ h.errs (fun ha => by cases ha)
  | handErr i t err hg hr hpc =>
    have hno := no_reported prog s h (by rw [hpc]; intro r hr; cases hr)
    intro g hgm ha
    rcases List.mem_or_eq_of_mem_set hgm with hm | rfl
    · rw [hno g hm] at ha; cases ha
    · simp [Goroutine.result, hr]
  | finishSent i t hg =>
    exact forall_mem_set _ _ _ _ h.errs
      (fun _ => h.errs (.worker t .sent) (mem_of_getElem? _ _ _ hg) rfl)
  | wake i hg hwg => exact forall_mem_set _ _ _ _ h.errs (fun ha => by cases ha)
  | waiterSend i hg hpc => exact forall_mem_set _ _ _ _ h.errs (fun ha => by cases ha)
  | recvErr i t err hpc hg =>
    have hno := no_reported prog s h (by rw [hpc]; intro r hr; cases hr)
    have hch := h.chan _ (mem_of_getElem? _ _ _ hg)
    intro g hgm ha
    rcases List.mem_or_eq_of_mem_set hgm with hm | rfl
    · rw [hno g hm] at ha; cases ha
    · simp only [Goroutine.chanOk] at hch
      simp [Goroutine.result, hch.2]
  | recvNilNext i hpc hg hlt | handNilNext i hg hpc hlt | recvNilLast i hpc hg hlt
  | handNilLast i hg hpc hlt =>
    have hno := no_reported prog s h (by rw [hpc]; intro r hr; cases hr)
    intro g hgm ha
    rcases List.mem_or_eq_of_mem_set hgm with hm | rfl
    · rw [hno g hm] at ha; cases ha
    · cases ha
  | ctxDone hpc hc =>
    intro g hg ha
    rw [no_reported prog s h (by rw [hpc]; intro r hr; cases hr) g hg] at ha; cases ha
  | cancel hc hpc => exact h.errs
  | cancelParked hc hpc =>
    intro g hg ha
    rw [no_reported prog s h (by rw [hpc]; intro r hr; cases hr) g hg] at ha; cases ha

theorem doneW_append (prog : Program) (s : State) (h : Inv prog s) (x : Goroutine)
    (hx : x ≠ .waiter .done) (hpc : ∀ r, s.pc ≠ .returned r) :
    ∀ i, (s.gors ++ [x])[i]? = some (.waiter .done) → i < (oldShape prog s.phase).length := by
  intro i hi
  by_cases hlt : i < s.gors.length
  · rw [List.getElem?_append_left hlt] at hi
    rcases h.doneW i hi with h1 | ⟨r, hr⟩
    · exact h1
    · exact absurd hr (hpc r)
  · rw [List.getElem?_append_right (by omega)] at hi
    have : i - s.gors.length = 0 := by
      have := lt_of_getElem? _ _ _ hi
      simpa using this
    rw [this] at hi
    simp only [List.getElem?_cons_zero, Option.some.injEq] at hi
    exact absurd hi hx

theorem doneW_set (prog : Program) (s : State) (h : Inv prog s) (k : Nat) (g1 : Goroutine)
    (hx : g1 ≠ .waiter .done) :
    ∀ i, (s.gors.set k g1)[i]? = some (.waiter .done) →
      i < (oldShape prog s.phase).length ∨ ∃ r, s.pc = .returned r := by
  intro i hi
  rcases getElem?_set_cases _ _ _ _ _ hi with ⟨_, he⟩ | ⟨_, hi⟩
  · exact absurd he.symm hx
  · exact h.doneW i hi

theorem inv_doneW (prog : Program) (s s1 : State) (h : Inv prog s) (hs : Step prog s s1) :
    ∀ i, s1.gors[i]? = some (.waiter .done) →
      i < (oldShape prog s1.phase).length ∨ ∃ r, s1.pc = .returned r := by
  cases hs with
  | spawn j t hpc ht =>
    intro i hi
    exact Or.inl (doneW_append prog s h _ (by simp) (by rw [hpc]; intro r hr; cases hr) i hi)
  | loopExit j hpc ht =>
    intro i hi
    rcases h.doneW i hi with h1 | ⟨r, hr⟩
    · exact Or.inl h1
    · rw [hpc] at hr; cases hr
  | spawnWaiter hpc =>
    intro i hi
    exact Or.inl (doneW_append prog s h _ (by simp) (by rw [hpc]; intro r hr; cases hr) i hi)
  | park hpc hno hc =>
    intro i hi
    rcases h.doneW i hi with h1 | ⟨r, hr⟩
    · exact Or.inl h1
    · rw [hpc] at hr; cases hr
  | invoke i t hg => exact doneW_set prog s h i _ (by simp)
  | ret i t hg => exact doneW_set prog s h i _ (by simp)
  | finishOk i t hg hr => exact doneW_set prog s h i _ (by simp)
  | beginSend i t err hg hr hpc => exact doneW_set prog s h i _ (by simp)
  | handErr i t err hg hr hpc => exact fun _ _ => Or.inr ⟨_, rfl⟩
  | finishSent i t hg => exact doneW_set prog s h i _ (by simp)
  | wake i hg hwg => exact doneW_set prog s h i _ (by simp)
  | waiterSend i hg hpc => exact doneW_set prog s h i _ (by simp)
  | recvErr i t err hpc hg => exact fun _ _ => Or.inr ⟨_, rfl⟩
  | recvNilNext i hpc hg hlt =>
    intro k hk
    left
    have hlen := inv_length prog s h
    have hk2 := lt_of_getElem? _ _ _ hk
    rw [hpc] at hlen
    simp only [curShape, List.length_append, List.length_map, List.length_singleton] at hlen
    simp only [oldShape_succ prog s.phase (by omega), List.length_append, List.length_set,
      List.length_map, List.length_singleton] at hk2 ⊢
    omega
  | handNilNext i hg hpc hlt =>
    intro k hk
    left
    have hlen := inv_length prog s h
    have hk2 := lt_of_getElem? _ _ _ hk
    rw [hpc] at hlen
    simp only [curShape, List.length_append, List.length_map, List.length_singleton] at hlen
    simp only [oldShape_succ prog s.phase (by omega), List.length_append, List.length_set,
      List.length_map, List.length_singleton] at hk2 ⊢
    omega
  | recvNilLast i hpc hg hlt => exact fun _ _ => Or.inr ⟨_, rfl⟩
  | handNilLast i hg hpc hlt => exact fun _ _ => Or.inr ⟨_, rfl⟩
  | ctxDone hpc hc => exact fun _ _ => Or.inr ⟨_, rfl⟩
  | cancel hc hpc => exact h.doneW
  | cancelParked hc hpc => exact fun _ _ => Or.inr ⟨_, rfl⟩

/-- The reason for which `main` returned survives a step of a goroutine. -/
theorem ret_set (prog : Program) (s : State) (h : Inv prog s) (k : Nat) (g0 g1 : Goroutine)
    (hg0 : s.gors[k]? = some g0) (hq : g0.quiet = false)
    (hrep : g0.reported = true → g1.reported = true ∧ g1.result = g0.result) :
    ∀ r, s.pc = .returned r →
      (r ≠ none ∧ ∃ g ∈ s.gors.set k g1, g.reported = true ∧ g.result = r) ∨
      (r = none ∧ s.cancelled = true) ∨
      (r = none ∧ ¬ s.phase + 1 < prog.length ∧ ∀ g ∈ s.gors.set k g1, g.quiet = true) := by
  intro r hr
  rcases h.ret r hr with ⟨hne, g, hg, hrp, hres⟩ | hc | ⟨_, _, hall⟩
  · left
    refine ⟨hne, ?_⟩
    rcases mem_set_or _ k g0 g1 g hg0 hg with hm | rfl
    · exact ⟨g, hm, hrp, hres⟩
    · exact ⟨g1, mem_set_self _ _ _ _ hg0, (hrep hrp).1, (hrep hrp).2.trans hres⟩
  · exact Or.inr (Or.inl hc)
  · rw [hall g0 (mem_of_getElem? _ _ _ hg0)] at hq
    cases hq

theorem inv_ret (prog : Program) (s s1 : State) (h : Inv prog s) (hs : Step prog s s1) :
    ∀ r, s1.pc = .returned r →
      (r ≠ none ∧ ∃ g ∈ s1.gors, g.reported = true ∧ g.result = r) ∨
      (r = none ∧ s1.cancelled = true) ∨
      (r = none ∧ ¬ s1.phase + 1 < prog.length ∧ ∀ g ∈ s1.gors, g.quiet = true) := by
  cases hs with
  | spawn j t hpc ht => intro r hr; cases hr
  | loopExit j hpc ht => intro r hr; cases hr
  | spawnWaiter hpc => intro r hr; cases hr
  | park hpc hno hc => intro r hr; cases hr
  | invoke i t hg => exact ret_set prog s h i _ _ hg rfl (fun ha => by cases ha)
  | ret i t hg => exact ret_set prog s h i _ _ hg rfl (fun ha => by cases ha)
  | finishOk i t hg hr => exact ret_set prog s h i _ _ hg rfl (fun ha => by cases ha)
  | beginSend i t err hg hr hpc =>
    exact ret_set prog s h i _ _ hg rfl (fun ha => by cases ha)
  | handErr i t err hg hr hpc =>
    intro r hr1
    cases hr1
    exact Or.inl ⟨by simp, _, mem_set_self _ _ _ _ hg, rfl, hr⟩
  | finishSent i t hg =>
    have := (h.errs _ (mem_of_getElem? _ _ _ hg) rfl).1
    refine ret_set prog s h i _ _ hg rfl (fun _ => ⟨?_, rfl⟩)
    simp only [Goroutine.result] at this
    simp [Goroutine.reported, Option.isSome_iff_ne_none, this]
  | wake i hg hwg => exact ret_set prog s h i _ _ hg rfl (fun ha => by cases ha)
  | waiterSend i hg hpc => exact ret_set prog s h i _ _ hg rfl (fun ha => by cases ha)
  | recvErr i t err hpc hg =>
    have hch := h.chan _ (mem_of_getElem? _ _ _ hg)
    simp only [Goroutine.chanOk] at hch
    intro r hr
    cases hr
    exact Or.inl ⟨by simp, _, mem_set_self _ _ _ _ hg, rfl, hch.2⟩
  | recvNilNext i hpc hg hlt => intro r hr; cases hr
  | handNilNext i hg hpc hlt => intro r hr; cases hr
  | recvNilLast i hpc hg hlt =>
    intro r hr
    cases hr
    exact Or.inr (Or.inr ⟨rfl, hlt, all_quiet_at_nil prog s h i _ (by rw [hpc]; intro r hr; cases hr) hg rfl⟩)
  | handNilLast i hg hpc hlt =>
    intro r hr
    cases hr
    exact Or.inr (Or.inr ⟨rfl, hlt, all_quiet_at_nil prog s h i _ (by rw [hpc]; intro r hr; cases hr) hg rfl⟩)
  | ctxDone hpc hc =>
    intro r hr
    cases hr
    exact Or.inr (Or.inl ⟨rfl, hc⟩)
  | cancel hc hpc =>
    intro r hr
    rcases h.ret r hr with h1 | h2 | h3
    · exact Or.inl h1
    · exact Or.inr (Or.inl ⟨h2.1, rfl⟩)
    · exact Or.inr (Or.inr h3)
  | cancelParked hc hpc =>
    intro r hr
    cases hr
    exact Or.inr (Or.inl ⟨rfl, rfl⟩)

theorem count_snoc {α : Type} [DecidableEq α] (a b : α) (l : List α) :
    (l ++ [b]).count a = l.count a + (if b = a then 1 else 0) := by
  rw [List.count_append, List.count_singleton]
  simp

theorem countP_snoc {α : Type} (p : α → Bool) (b : α) (l : List α) :
    (l ++ [b]).countP p = l.countP p + (if p b = true then 1 else 0) := by
  simp [List.countP_append, List.countP_cons]

theorem inv_logI (prog : Program) (s s1 : State) (h : Inv prog s) (hs : Step prog s s1) :
    ∀ c, s1.log.count (.invoke c) = s1.gors.countP (Goroutine.invoked c) := by
  intro c
  have hl := h.logI c
  cases hs with
  | spawn j t hpc ht => simp only [countP_snoc, Goroutine.invoked]; simpa using hl
  | loopExit j hpc ht => exact hl
  | spawnWaiter hpc => simp only [countP_snoc, Goroutine.invoked]; simpa using hl
  | invoke i t hg =>
    have := countP_set_eq (Goroutine.invoked c) s.gors i _ (.worker t .calling) hg
    simp only [Goroutine.invoked, count_snoc, Event.invoke.injEq, decide_eq_true_eq] at this ⊢
    simp only [Bool.false_eq_true, if_false] at this
    omega
  | ret i t hg =>
    have := countP_set_eq (Goroutine.invoked c) s.gors i _ (.worker t .returned) hg
    simp only [Goroutine.invoked, count_snoc, decide_eq_true_eq] at this ⊢
    simp only [reduceCtorEq, if_false] at this ⊢
    omega
  | finishOk i t hg hr =>
    have := countP_set_eq (Goroutine.invoked c) s.gors i _ (.worker t .finished) hg
    simp only [Goroutine.invoked] at this ⊢
    omega
  | beginSend i t err hg hr hpc =>
    have := countP_set_eq (Goroutine.invoked c) s.gors i _ (.worker t (.sending s.phase err)) hg
    simp only [Goroutine.invoked] at this ⊢
    omega
  | handErr i t err hg hr hpc =>
    have := countP_set_eq (Goroutine.invoked c) s.gors i _ (.worker t .sent) hg
    simp only [Goroutine.invoked] at this ⊢
    omega
  | finishSent i t hg =>
    have := countP_set_eq (Goroutine.invoked c) s.gors i _ (.worker t .finished) hg
    simp only [Goroutine.invoked] at this ⊢
    omega
  | wake i hg hwg =>
    have := countP_set_eq (Goroutine.invoked c) s.gors i _ (.waiter .woke) hg
    simp only [Goroutine.invoked] at this ⊢
    omega
  | waiterSend i hg hpc =>
    have := countP_set_eq (Goroutine.invoked c) s.gors i _ (.waiter (.sending s.phase)) hg
    simp only [Goroutine.invoked] at this ⊢
    omega
  | recvErr i t err hpc hg =>
    have := countP_set_eq (Goroutine.invoked c) s.gors i _ (.worker t .sent) hg
    simp only [Goroutine.invoked] at this ⊢
    omega
  | recvNilNext i hpc hg hlt =>
    have := countP_set_eq (Goroutine.invoked c) s.gors i _ (.waiter .done) hg
    simp only [Goroutine.invoked] at this ⊢
    omega
  | handNilNext i hg hpc hlt =>
    have := countP_set_eq (Goroutine.invoked c) s.gors i _ (.waiter .done) hg
    simp only [Goroutine.invoked] at this ⊢
    omega
  | recvNilLast i hpc hg hlt =>
    have := countP_set_eq (Goroutine.invoked c) s.gors i _ (.waiter .done) hg
    simp only [Goroutine.invoked] at this ⊢
    omega
  | handNilLast i hg hpc hlt =>
    have := countP_set_eq (Goroutine.invoked c) s.gors i _ (.waiter .done) hg
    simp only [Goroutine.invoked] at this ⊢
    omega
  | park hpc hno hc => exact hl
  | ctxDone hpc hc => exact hl
  | cancel hc hpc => exact hl
  | cancelParked hc hpc => exact hl

theorem inv_logR (prog : Program) (s s1 : State) (h : Inv prog s) (hs : Step prog s s1) :
    ∀ c r, s1.log.count (.ret c r) = s1.gors.countP (Goroutine.hasReturned c r) := by
  intro c r
  have hl := h.logR c r
  cases hs with
  | spawn j t hpc ht => simp only [countP_snoc, Goroutine.hasReturned]; simpa using hl
  | loopExit j hpc ht => exact hl
  | spawnWaiter hpc => simp only [countP_snoc, Goroutine.hasReturned]; simpa using hl
  | invoke i t hg =>
    have := countP_set_eq (Goroutine.hasReturned c r) s.gors i _ (.worker t .calling) hg
    simp only [Goroutine.hasReturned, count_snoc] at this ⊢
    simp only [reduceCtorEq, if_false] at this ⊢
    omega
  | ret i t hg =>
    have := countP_set_eq (Goroutine.hasReturned c r) s.gors i _ (.worker t .returned) hg
    simp only [Goroutine.hasReturned, count_snoc, Event.ret.injEq, decide_eq_true_eq]
      at this ⊢
    simp only [Bool.false_eq_true, if_false] at this
    omega
  | finishOk i t hg hr =>
    have := countP_set_eq (Goroutine.hasReturned c r) s.gors i _ (.worker t .finished) hg
    simp only [Goroutine.hasReturned] at this ⊢
    omega
  | beginSend i t err hg hr hpc =>
    have := countP_set_eq (Goroutine.hasReturned c r) s.gors i _ (.worker t (.sending s.phase err)) hg
    simp only [Goroutine.hasReturned] at this ⊢
    omega
  | handErr i t err hg hr hpc =>
    have := countP_set_eq (Goroutine.hasReturned c r) s.gors i _ (.worker t .sent) hg
    simp only [Goroutine.hasReturned] at this ⊢
    omega
  | finishSent i t hg =>
    have := countP_set_eq (Goroutine.hasReturned c r) s.gors i _ (.worker t .finished) hg
    simp only [Goroutine.hasReturned] at this ⊢
    omega
  | wake i hg hwg =>
    have := countP_set_eq (Goroutine.hasReturned c r) s.gors i _ (.waiter .woke) hg
    simp only [Goroutine.hasReturned] at this ⊢
    omega
  | waiterSend i hg hpc =>
    have := countP_set_eq (Goroutine.hasReturned c r) s.gors i _ (.waiter (.sending s.phase)) hg
    simp only [Goroutine.hasReturned] at this ⊢
    omega
  | recvErr i t err hpc hg =>
    have := countP_set_eq (Goroutine.hasReturned c r) s.gors i _ (.worker t .sent) hg
    simp only [Goroutine.hasReturned] at this ⊢
    omega
  | recvNilNext i hpc hg hlt =>
    have := countP_set_eq (Goroutine.hasReturned c r) s.gors i _ (.waiter .done) hg
    simp only [Goroutine.hasReturned] at this ⊢
    omega
  | handNilNext i hg hpc hlt =>
    have := countP_set_eq (Goroutine.hasReturned c r) s.gors i _ (.waiter .done) hg
    simp only [Goroutine.hasReturned] at this ⊢
    omega
  | recvNilLast i hpc hg hlt =>
    have := countP_set_eq (Goroutine.hasReturned c r) s.gors i _ (.waiter .done) hg
    simp only [Goroutine.hasReturned] at this ⊢
    omega
  | handNilLast i hg hpc hlt =>
    have := countP_set_eq (Goroutine.hasReturned c r) s.gors i _ (.waiter .done) hg
    simp only [Goroutine.hasReturned] at this ⊢
    omega
  | park hpc hno hc => exact hl
  | ctxDone hpc hc => exact hl
  | cancel hc hpc => exact hl
  | cancelParked hc hpc => exact hl

theorem inv_bound (prog : Program) (s s1 : State) (h : Inv prog s) (hs : Step prog s s1) :
    s1.phase < prog.length ∨ s1.phase = 0 := by
  have hb := h.bound
  cases hs with
  | recvNilNext i hpc hg hlt => exact Or.inl hlt
  | handNilNext i hg hpc hlt => exact Or.inl hlt
  | spawn j t hpc ht => exact hb
  | loopExit j hpc ht => exact hb
  | spawnWaiter hpc => exact hb
  | park hpc hno hc => exact hb
  | invoke i t hg => exact hb
  | ret i t hg => exact hb
  | finishOk i t hg hr => exact hb
  | beginSend i t err hg hr hpc => exact hb
  | handErr i t err hg hr hpc => exact hb
  | finishSent i t hg => exact hb
  | wake i hg hwg => exact hb
  | waiterSend i hg hpc => exact hb
  | recvErr i t err hpc hg => exact hb
  | recvNilLast i hpc hg hlt => exact hb
  | handNilLast i hg hpc hlt => exact hb
  | ctxDone hpc hc => exact hb
  | cancel hc hpc => exact hb
  | cancelParked hc hpc => exact hb

theorem inv_parked (prog : Program) (s s1 : State) (h : Inv prog s) (hs : Step prog s s1) :
    s1.pc = .parked →
      s1.cancelled = false ∧ ∀ g ∈ s1.gors, g.sendingOn s1.phase = false := by
  have hp := h.parked
  cases hs with
  | park hpc hno hc =>
    intro _
    refine ⟨hc, fun g hg => ?_⟩
    have := List.any_eq_false.mp hno g hg
    simpa using this
  | spawn j t hpc ht => intro hp1; cases hp1
  | loopExit j hpc ht => intro hp1; cases hp1
  | spawnWaiter hpc => intro hp1; cases hp1
  | invoke i t hg =>
    intro hp1
    exact ⟨(hp hp1).1, forall_mem_set _ _ _ _ (hp hp1).2 rfl⟩
  | ret i t hg =>
    intro hp1
    exact ⟨(hp hp1).1, forall_mem_set _ _ _ _ (hp hp1).2 rfl⟩
  | finishOk i t hg hr =>
    intro hp1
    exact ⟨(hp hp1).1, forall_mem_set _ _ _ _ (hp hp1).2 rfl⟩
  | beginSend i t err hg hr hpc => intro hp1; exact absurd hp1 hpc
  | handErr i t err hg hr hpc => intro hp1; cases hp1
  | finishSent i t hg =>
    intro hp1
    exact ⟨(hp hp1).1, forall_mem_set _ _ _ _ (hp hp1).2 rfl⟩
  | wake i hg hwg =>
    intro hp1
    exact ⟨(hp hp1).1, forall_mem_set _ _ _ _ (hp hp1).2 rfl⟩
  | waiterSend i hg hpc => intro hp1; exact absurd hp1 hpc
  | recvErr i t err hpc hg => intro hp1; cases hp1
  | recvNilNext i hpc hg hlt => intro hp1; cases hp1
  | handNilNext i hg hpc hlt => intro hp1; cases hp1
  | recvNilLast i hpc hg hlt => intro hp1; cases hp1
  | handNilLast i hg hpc hlt => intro hp1; cases hp1
  | ctxDone hpc hc => intro hp1; cases hp1
  | cancel hc hpc => intro hp1; exact absurd hp1 hpc
  | cancelParked hc hpc => intro hp1; cases hp1

/-- The invariant is kept by every step. -/
theorem inv_step (prog : Program) (s s1 : State) (h : Inv prog s) (hs : Step prog s s1) :
    Inv prog s1 :=
  { shape := inv_shape prog s s1 h hs
    old := inv_old prog s s1 h hs
    wg := inv_wg prog s s1 h hs
    chan := inv_chan prog s s1 h hs
    awake := inv_awake prog s s1 h hs
    errs := inv_errs prog s s1 h hs
    doneW := inv_doneW prog s s1 h hs
    ret := inv_ret prog s s1 h hs
    logI := inv_logI prog s s1 h hs
    logR := inv_logR prog s s1 h hs
    bound := inv_bound prog s s1 h hs
    parked := inv_parked prog s s1 h hs }

theorem inv_exec (prog : Program) (s s1 : State) (tr : List Action) (h : Inv prog s)
    (he : exec prog s tr = some s1) : Inv prog s1 := by
  induction tr generalizing s with
  | nil =>
    simp only [exec, Option.some.injEq] at he
    exact he ▸ h
  | cons a as ih =>
    simp only [exec] at he
    split at he
    · cases he
    · rename_i s2 hstep
      exact ih s2 (inv_step prog s s2 h (step_sound prog s s2 a hstep)) he

/-- The invariant holds in every state reached from the initial one. -/
theorem inv_reach (prog : Program) (s : State) (tr : List Action)
    (he : exec prog State.init tr = some s) : Inv prog s :=
  inv_exec prog _ s tr (inv_init prog) he

theorem exec_append (prog : Program) (s : State) (tr1 tr2 : List Action) :
    exec prog s (tr1 ++ tr2) = (exec prog s tr1).bind fun s1 => exec prog s1 tr2 := by
  induction tr1 generalizing s with
  | nil => rfl
  | cons a as ih =>
    simp only [List.cons_append, exec]
    cases step prog s a with
    | none => rfl
    | some s1 => exact ih s1

/-- While `main` is blocked in the select, an unfinished loop goroutine can take
a step. -/
theorem worker_enabled (prog : Program) (s : State) (h : Inv prog s) (hpc : s.pc = .parked)
    (k : Nat) (g : Goroutine) (hk : s.gors[k]? = some g) (hu : g.unfinished = true) :
    (step prog s (.go k)).isSome = true := by
  cases g with
  | waiter st => cases hu
  | worker t st =>
    cases st with
    | spawned => simp [step, hk]
    | calling => simp [step, hk]
    | returned =>
      simp only [step, hk, hpc, received]
      cases t.result <;> rfl
    | sending ch err =>
      have hch := h.chan _ (mem_of_getElem? _ _ _ hk)
      simp only [Goroutine.chanOk] at hch
      have := (h.parked hpc).2 _ (mem_of_getElem? _ _ _ hk)
      simp [Goroutine.sendingOn, hch.1] at this
    | sent => simp [step, hk]
    | finished => cases hu

/-- A goroutine blocked in a send on the current channel can be received from
when `main` arrives at the select. -/
theorem sender_enabled (prog : Program) (s : State) (hpc : s.pc = .select)
    (k : Nat) (g : Goroutine) (hk : s.gors[k]? = some g)
    (hs : g.sendingOn s.phase = true) : (step prog s (.recv k)).isSome = true := by
  cases g with
  | worker t st =>
    cases st <;> simp only [Goroutine.sendingOn, decide_eq_true_eq] at hs <;> try cases hs
    simp [step, hpc, hk, received]
  | waiter st =>
    cases st <;> simp only [Goroutine.sendingOn, decide_eq_true_eq] at hs <;> try cases hs
    simp only [step, hpc, hk, if_true, received]
    split <;> rfl

/-- Deadlock freedom: as long as `main` has not returned and the workflow is
not cancelled, some goroutine can take a step. -/
theorem progress (prog : Program) (s : State) (h : Inv prog s)
    (hpc : ∀ r, s.pc ≠ .returned r) (hc : s.cancelled = false) :
    ∃ a, a ≠ .cancel ∧ a ≠ .ctxDone ∧ (step prog s a).isSome = true := by
  cases hp : s.pc with
  | returned r => exact absurd hp (hpc r)
  | spawn j =>
    refine ⟨.main, by simp, by simp, ?_⟩
    simp only [step, hp]
    cases (prog.getD s.phase [])[j]? <;> rfl
  | spawnWaiter =>
    exact ⟨.main, by simp, by simp, by simp [step, hp]⟩
  | select =>
    by_cases hany : s.gors.any (Goroutine.sendingOn s.phase) = true
    · obtain ⟨g, hg, hs⟩ := List.any_eq_true.mp hany
      obtain ⟨k, hk⟩ := List.mem_iff_getElem?.mp hg
      exact ⟨.recv k, by simp, by simp, sender_enabled prog s hp k g hk hs⟩
    · refine ⟨.main, by simp, by simp, ?_⟩
      simp only [Bool.not_eq_true] at hany
      simp [step, hp, hany, hc]
  | parked =>
    have hlen := inv_length prog s h
    rw [hp] at hlen
    simp only [curShape, List.length_append, List.length_map, List.length_singleton] at hlen
    -- the last goroutine started is the `wg.Wait()` goroutine of this phase
    obtain ⟨g, hg⟩ : ∃ g, s.gors[s.gors.length - 1]? = some g :=
      ⟨_, List.getElem?_eq_getElem (by omega)⟩
    have hkind : g.kind = none := by
      have hk : (s.gors.map Goroutine.kind)[s.gors.length - 1]? = some g.kind := by
        rw [List.getElem?_map, hg]; rfl
      rw [h.shape, hp, List.getElem?_append_right (by omega)] at hk
      simp only [curShape] at hk
      rw [List.getElem?_append_right (by simp only [List.length_map]; omega)] at hk
      have hz : s.gors.length - 1 - (oldShape prog s.phase).length -
          ((prog.getD s.phase []).map some).length = 0 := by
        simp only [List.length_map]; omega
      rw [hz] at hk
      simpa using hk.symm
    cases g with
    | worker t st => cases hkind
    | waiter st =>
      cases st with
      | waiting =>
        by_cases hwg : s.wg = 0
        · exact ⟨.go (s.gors.length - 1), by simp, by simp, by simp [step, hg, hwg]⟩
        · have hpos : 0 < s.gors.countP Goroutine.unfinished := by
            have := h.wg
            omega
          obtain ⟨g0, hm, hu⟩ := List.countP_pos_iff.mp hpos
          obtain ⟨k, hk⟩ := List.mem_iff_getElem?.mp hm
          exact ⟨.go k, by simp, by simp, worker_enabled prog s h hp k g0 hk hu⟩
      | woke =>
        refine ⟨.go (s.gors.length - 1), by simp, by simp, ?_⟩
        simp only [step, hg, hp, received]
        split <;> rfl
      | sending ch =>
        have hch := h.chan _ (mem_of_getElem? _ _ _ hg)
        simp only [Goroutine.chanOk] at hch
        have := (h.parked hp).2 _ (mem_of_getElem? _ _ _ hg)
        simp [Goroutine.sendingOn, hch] at this
      | done =>
        rcases h.doneW _ hg with hlt | ⟨r, hr⟩
        · omega
        · exact absurd hr (hpc r)

/-- Executions are finite: a trace is no longer than the bound of its start
state allows. -/
theorem exec_length (prog : Program) (s s1 : State) (tr : List Action)
    (he : exec prog s tr = some s1) : tr.length + s1.todo prog ≤ s.todo prog := by
  induction tr generalizing s with
  | nil =>
    simp only [exec, Option.some.injEq] at he
    subst he
    simp
  | cons a as ih =>
    simp only [exec] at he
    split at he
    · cases he
    · rename_i s2 hstep
      have h1 := step_todo prog s s2 (step_sound prog s s2 a hstep)
      have h2 := ih s2 he
      simp only [List.length_cons]
      omega

theorem step_cancelled (prog : Program) (s s1 : State) (a : Action)
    (h : step prog s a = some s1) (ha : a ≠ .cancel) : s1.cancelled = s.cancelled := by
  cases a with
  | cancel => exact absurd rfl ha
  | main =>
    simp only [step] at h
    repeat' split at h
    all_goals (cases h <;> rfl)
  | go i =>
    simp only [step, received] at h
    repeat' split at h
    all_goals (cases h <;> rfl)
  | recv i =>
    simp only [step, received] at h
    repeat' split at h
    all_goals (cases h <;> rfl)
  | ctxDone =>
    simp only [step] at h
    repeat' split at h
    all_goals (cases h <;> rfl)

/-- Every state in which `main` has not returned and the workflow is not
cancelled can be driven, without cancellation, to one in which `main` has
returned. -/
theorem exists_return (prog : Program) (n : Nat) :
    ∀ s, Inv prog s → s.cancelled = false → s.todo prog ≤ n →
      ∃ tr s1, Action.cancel ∉ tr ∧ Action.ctxDone ∉ tr ∧ exec prog s tr = some s1 ∧
        ∃ r, s1.pc = .returned r := by
  induction n with
  | zero =>
    intro s h hc hn
    by_cases hret : ∃ r, s.pc = .returned r
    · exact ⟨[], s, by simp, by simp, rfl, hret⟩
    · obtain ⟨a, _, _, ha⟩ := progress prog s h (fun r hr => hret ⟨r, hr⟩) hc
      obtain ⟨s2, hs2⟩ := Option.isSome_iff_exists.mp ha
      have := step_todo prog s s2 (step_sound prog s s2 a hs2)
      omega
  | succ n ih =>
    intro s h hc hn
    by_cases hret : ∃ r, s.pc = .returned r
    · exact ⟨[], s, by simp, by simp, rfl, hret⟩
    · obtain ⟨a, hac, had, ha⟩ := progress prog s h (fun r hr => hret ⟨r, hr⟩) hc
      obtain ⟨s2, hs2⟩ := Option.isSome_iff_exists.mp ha
      have hstep := step_sound prog s s2 a hs2
      have := step_todo prog s s2 hstep
      have hc2 : s2.cancelled = false := by
        rw [step_cancelled prog s s2 a hs2 hac, hc]
      obtain ⟨tr, s1, h1, h2, h3, h4⟩ := ih s2 (inv_step prog s s2 h hstep) hc2 (by omega)
      refine ⟨a :: tr, s1, ?_, ?_, ?_, h4⟩
      · simp only [List.mem_cons, not_or]
        exact ⟨fun e => hac e.symm, h1⟩
      · simp only [List.mem_cons, not_or]
        exact ⟨fun e => had e.symm, h2⟩
      · simp only [exec, hs2, h3]

theorem exec_cancelled (prog : Program) (s s1 : State) (tr : List Action)
    (he : exec prog s tr = some s1) (hc : Action.cancel ∉ tr) :
    s1.cancelled = s.cancelled := by
  induction tr generalizing s with
  | nil =>
    simp only [exec, Option.some.injEq] at he
    rw [he]
  | cons a as ih =>
    simp only [List.mem_cons, not_or] at hc
    simp only [exec] at he
    split at he
    · cases he
    · rename_i s2 hstep
      rw [ih s2 he hc.2, step_cancelled prog s s2 a hstep (fun e => hc.1 e.symm)]

theorem goAll_map_call (mk : Nat → String → Task) (f : String → Call)
    (hf : ∀ k x, (mk k x).call = f x) (k : Nat) (l : List String) :
    (goAll mk k l).map Task.call = l.map f := by
  induction l generalizing k with
  | nil => rfl
  | cons x xs ih => simp [goAll, hf, ih]

theorem mem_goAll (mk : Nat → String → Task) (k : Nat) (l : List String) (t : Task) :
    t ∈ goAll mk k l ↔ ∃ j x, l[j]? = some x ∧ t = mk (k + j) x := by
  induction l generalizing k with
  | nil => simp [goAll]
  | cons y ys ih =>
    simp only [goAll, List.mem_cons, ih]
    constructor
    · rintro (rfl | ⟨j, x, hj, rfl⟩)
      · exact ⟨0, y, by simp, rfl⟩
      · exact ⟨j + 1, x, by simpa using hj, by rw [Nat.add_right_comm, Nat.add_assoc]⟩
    · rintro ⟨j, x, hj, rfl⟩
      cases j with
      | zero =>
        simp only [List.getElem?_cons_zero, Option.some.injEq] at hj
        subst hj
        exact Or.inl rfl
      | succ n =>
        simp only [List.getElem?_cons_succ] at hj
        exact Or.inr ⟨n, x, hj, by rw [Nat.add_right_comm, Nat.add_assoc]⟩

/-- Every loop goroutine started so far belongs to the current phase or to an
earlier one. -/
theorem worker_task_mem (prog : Program) (s : State) (h : Inv prog s) (t : Task)
    (st : WorkerSt) (hg : Goroutine.worker t st ∈ s.gors) :
    ∃ k, k ≤ s.phase ∧ t ∈ prog.getD k [] := by
  have hm : some t ∈ s.gors.map Goroutine.kind := List.mem_map.mpr ⟨_, hg, rfl⟩
  rw [h.shape] at hm
  rcases List.mem_append.mp hm with ho | hc
  · simp only [oldShape, List.mem_flatMap] at ho
    obtain ⟨p, hp, htp⟩ := ho
    obtain ⟨k, hk⟩ := List.mem_iff_getElem?.mp hp
    have hklt : k < s.phase := by
      have := lt_of_getElem? _ _ _ hk
      simp only [List.length_take] at this
      omega
    rw [List.getElem?_take_of_lt hklt] at hk
    refine ⟨k, by omega, ?_⟩
    simp only [List.getD_eq_getElem?_getD, hk, Option.getD_some]
    simpa using htp
  · refine ⟨s.phase, le_refl _, ?_⟩
    cases hpc : s.pc with
    | spawn j =>
      rw [hpc] at hc
      simp only [curShape, List.mem_map, Option.some.injEq, exists_eq_right] at hc
      exact List.mem_of_mem_take hc
    | spawnWaiter =>
      rw [hpc] at hc
      simpa [curShape] using hc
    | select =>
      rw [hpc] at hc
      simpa [curShape] using hc
    | parked =>
      rw [hpc] at hc
      simpa [curShape] using hc
    | returned r =>
      rw [hpc] at hc
      simpa [curShape] using hc

/-- Every call of an earlier phase has returned without error. -/
theorem old_results (prog : Program) (s : State) (h : Inv prog s) (k : Nat) (t : Task)
    (hk : k < s.phase) (ht : t ∈ prog.getD k []) : t.result = none := by
  have hlt : k < prog.length := by
    by_contra hcon
    rw [List.getD_eq_getElem?_getD, List.getElem?_eq_none (by omega)] at ht
    simp at ht
  have hp : prog.getD k [] ∈ prog.take s.phase := by
    refine List.mem_iff_getElem?.mpr ⟨k, ?_⟩
    rw [List.getElem?_take_of_lt hk, List.getD_eq_getElem?_getD, List.getElem?_eq_getElem hlt]
    rfl
  have hm : some t ∈ oldShape prog s.phase := by
    simp only [oldShape, List.mem_flatMap]
    exact ⟨_, hp, by simp only [List.mem_append, List.mem_map]; exact Or.inl ⟨t, ht, rfl⟩⟩
  obtain ⟨i, hi⟩ := List.mem_iff_getElem?.mp hm
  have hilt := lt_of_getElem? _ _ _ hi
  have hk2 : (s.gors.map Goroutine.kind)[i]? = some (some t) := by
    rw [h.shape, List.getElem?_append_left hilt, hi]
  rw [List.getElem?_map] at hk2
  cases hg : s.gors[i]? with
  | none => rw [hg] at hk2; cases hk2
  | some g =>
    rw [hg] at hk2
    simp only [Option.map_some', Option.some.injEq] at hk2
    have hq := h.old i g hg hilt
    cases g with
    | waiter st => cases hk2
    | worker t1 st =>
      simp only [Goroutine.kind, Option.some.injEq] at hk2
      subst hk2
      cases st <;> simp_all [Goroutine.quiet]

theorem filterMap_id_oldShape (l : List (List Task)) :
    (l.flatMap fun p => p.map some ++ [none]).filterMap id = l.flatMap id := by
  induction l with
  | nil => rfl
  | cons p ps ih =>
    simp only [List.flatMap_cons, List.filterMap_append, ih, id]
    simp

/-- Once `main` is at a select or has left it, the loop goroutines started so
far are the tasks of all phases up to the current one. -/
theorem tasks_joined (prog : Program) (s : State) (h : Inv prog s)
    (hpc : s.pc.joined = true) :
    s.gors.filterMap Goroutine.kind = (prog.take s.phase).flatMap id ++ prog.getD s.phase [] := by
  have h1 : s.gors.filterMap Goroutine.kind = (s.gors.map Goroutine.kind).filterMap id := by
    rw [List.filterMap_map]; rfl
  rw [h1, h.shape, List.filterMap_append, oldShape, filterMap_id_oldShape]
  congr 1
  cases hp : s.pc with
  | spawn j => rw [hp] at hpc; cases hpc
  | spawnWaiter => rw [hp] at hpc; cases hpc
  | select => simp [curShape, List.filterMap_append]
  | parked => simp [curShape, List.filterMap_append]
  | returned r => simp [curShape, List.filterMap_append]

theorem take_flatMap_last (prog : Program) (k : Nat) (h : ¬ k + 1 < prog.length) :
    (prog.take k).flatMap id ++ prog.getD k [] = prog.flatMap id := by
  by_cases hk : k < prog.length
  · have : prog.take (k + 1) = prog := List.take_of_length_le (by omega)
    conv_rhs => rw [← this, List.take_succ, List.flatMap_append]
    simp [List.getD_eq_getElem?_getD, List.getElem?_eq_getElem hk]
  · rw [List.take_of_length_le (by omega), List.getD_eq_getElem?_getD,
      List.getElem?_eq_none (by omega)]
    simp

theorem count_invokedCalls (log : List Event) (c : Call) :
    (invokedCalls log).count c = log.count (.invoke c) := by
  induction log with
  | nil => rfl
  | cons ev evs ih =>
    cases ev with
    | invoke c1 =>
      simp only [invokedCalls, List.filterMap_cons, List.count_cons] at ih ⊢
      rw [ih]
      simp
    | ret c1 r =>
      simp only [invokedCalls, List.filterMap_cons, List.count_cons] at ih ⊢
      rw [ih]
      simp

theorem quiet_invoked (l : List Goroutine) (c : Call) (h : ∀ g ∈ l, g.quiet = true) :
    l.countP (Goroutine.invoked c) = ((l.filterMap Goroutine.kind).map Task.call).count c := by
  induction l with
  | nil => rfl
  | cons g gs ih =>
    have hg := h g (List.mem_cons_self _ _)
    have ih2 := ih (fun x hx => h x (List.mem_cons_of_mem _ hx))
    cases g with
    | waiter st =>
      simp only [List.countP_cons, List.filterMap_cons, Goroutine.kind, Goroutine.invoked, ih2]
      simp
    | worker t st =>
      cases st <;> simp only [Goroutine.quiet] at hg <;> try cases hg
      simp only [List.countP_cons, List.filterMap_cons, Goroutine.kind, Goroutine.invoked, ih2,
        List.map_cons, List.count_cons, decide_eq_true_eq, beq_iff_eq]

/-- When `main` returns `nil` without cancellation, every task of the program
has been invoked exactly once. -/
theorem calls_at_return (prog : Program) (s : State) (h : Inv prog s)
    (hpc : s.pc = .returned none) (hc : s.cancelled = false) :
    (invokedCalls s.log).Perm ((prog.flatMap id).map Task.call) := by
  rcases h.ret none hpc with ⟨hne, _⟩ | ⟨_, hcan⟩ | ⟨_, hlast, hq⟩
  · exact absurd rfl hne
  · rw [hc] at hcan; cases hcan
  · refine List.perm_iff_count.mpr (fun c => ?_)
    rw [count_invokedCalls, h.logI, quiet_invoked _ _ hq,
      tasks_joined prog s h (by rw [hpc]; rfl), take_flatMap_last prog s.phase hlast]

theorem mem_getD_mem (prog : Program) (k : Nat) (t : Task) (h : t ∈ prog.getD k []) :
    prog.getD k [] ∈ prog := by
  by_cases hlt : k < prog.length
  · rw [List.getD_eq_getElem?_getD, List.getElem?_eq_getElem hlt]
    exact List.getElem_mem hlt
  · rw [List.getD_eq_getElem?_getD, List.getElem?_eq_none (by omega)] at h
    simp at h

theorem reported_worker (g : Goroutine) (h : g.reported = true) :
    ∃ t st, g = .worker t st ∧ (st = .sent ∨ st = .finished) := by
  cases g with
  | waiter st => cases h
  | worker t st =>
    cases st <;> simp only [Goroutine.reported] at h <;> try cases h
    · exact ⟨t, _, rfl, Or.inl rfl⟩
    · exact ⟨t, _, rfl, Or.inr rfl⟩

/-- A program whose calls all succeed runs to completion. -/
theorem runs_to_completion (prog : Program) (hok : AllSucceed prog) :
    RunsToCompletion prog ((prog.flatMap id).map Task.call) := by
  have key : ∀ tr s, exec prog State.init tr = some s → Action.cancel ∉ tr →
      ∀ r, s.pc = .returned r → r = none ∧
        (invokedCalls s.log).Perm ((prog.flatMap id).map Task.call) := by
    intro tr s he hc r hr
    have h := inv_reach prog s tr he
    have hcan : s.cancelled = false := exec_cancelled prog _ s tr he hc
    have hnone : r = none := by
      rcases h.ret r hr with ⟨hne, g, hg, hrep, hres⟩ | ⟨h1, _⟩ | ⟨h1, _⟩
      · obtain ⟨t, st, rfl, _⟩ := reported_worker g hrep
        obtain ⟨k, _, hk⟩ := worker_task_mem prog s h t st hg
        have := hok _ (mem_getD_mem prog k t hk) t hk
        simp only [Goroutine.result] at hres
        rw [← hres, this] at hne
        exact absurd rfl hne
      · exact h1
      · exact h1
    subst hnone
    exact ⟨rfl, calls_at_return prog s h hr hcan⟩
  intro tr s he hc
  refine ⟨?_, ?_, key tr s he hc⟩
  · have := exec_length prog _ s tr he
    omega
  · obtain ⟨tr1, s1, h1, _, h3, r, hr⟩ :=
      exists_return prog (s.todo prog) s (inv_reach prog s tr he)
        (exec_cancelled prog _ s tr he hc) (le_refl _)
    have he2 : exec prog State.init (tr ++ tr1) = some s1 := by
      rw [exec_append, he]; exact h3
    have hc2 : Action.cancel ∉ tr ++ tr1 := by
      simp only [List.mem_append, not_or]; exact ⟨hc, h1⟩
    have := (key _ s1 he2 hc2 r hr).1
    subst this
    exact ⟨tr1, s1, h1, h3, hr⟩

theorem run_tasks_calls (d : DeleteResources) (w : Workflow) :
    ((d.run w).flatMap id).map Task.call = d.calls w := by
  simp only [DeleteResources.run, List.flatMap_cons, List.flatMap_nil, id, List.append_nil,
    List.map_append, DeleteResources.calls]
  rw [goAll_map_call (deleteInstanceTask w) _ (fun _ _ => rfl),
    goAll_map_call (deleteImageTask w) _ (fun _ _ => rfl),
    goAll_map_call (deleteDiskTask w) _ (fun _ _ => rfl)]

theorem wait_tasks_calls (sw : WaitForInstancesStopped) (w : Workflow) :
    ((sw.run w).flatMap id).map Task.call = sw.calls w := by
  simp only [WaitForInstancesStopped.run, List.flatMap_cons, List.flatMap_nil, id,
    List.append_nil, WaitForInstancesStopped.calls]
  rw [goAll_map_call (waitTask w) _ (fun _ _ => rfl)]

/-- C10: when every client call succeeds and the workflow is never cancelled,
`DeleteResources.run` returns, it returns `nil`, and by then `deleteInstance`
has been invoked exactly once per entry of `Instances` on its resolved name,
`deleteImage` once per entry of `Images` on the entry itself and `deleteDisk`
once per entry of `Disks` on its resolved name (also when the lists are
empty); likewise `WaitForInstancesStopped.run` returns `nil` after invoking
`WaitForInstanceStopped` exactly once per listed instance. -/
theorem run_all_succeed (d : DeleteResources) (sw : WaitForInstancesStopped) (w : Workflow) :
    (AllSucceed (d.run w) → RunsToCompletion (d.run w) (d.calls w)) ∧
    (AllSucceed (sw.run w) → RunsToCompletion (sw.run w) (sw.calls w)) := by
  constructor
  · intro hok
    rw [← run_tasks_calls]
    exact runs_to_completion _ hok
  · intro hok
    rw [← wait_tasks_calls]
    exact runs_to_completion _ hok

theorem run_all_succeed_witness :
    RunsToCompletion (DeleteResources.run ⟨["a", "b"], ["d1"], ["img"]⟩ sampleWorkflow)
      [.deleteInstance "a-wf-x1", .deleteInstance "b-wf-x1", .deleteImage "img",
        .deleteDisk "d1-wf-x1"] ∧
    RunsToCompletion (WaitForInstancesStopped.run ["a", "b"] sampleWorkflow)
      [.WaitForInstanceStopped "p" "z" "a-wf-x1",
        .WaitForInstanceStopped "p" "z" "b-wf-x1"] :=
  ⟨(run_all_succeed ⟨["a", "b"], ["d1"], ["img"]⟩ ["a", "b"] sampleWorkflow).1
      (by unfold AllSucceed; decide),
   (run_all_succeed ⟨["a", "b"], ["d1"], ["img"]⟩ ["a", "b"] sampleWorkflow).2
      (by unfold AllSucceed; decide)⟩

theorem main_alone_select (prog : Program) (s : State) (hc : s.cancelled = true)
    (hpc : s.pc = .select) :
    ∃ tr1 s1, (∀ a ∈ tr1, a = Action.main ∨ a = Action.ctxDone) ∧
      exec prog s tr1 = some s1 ∧ s1.pc = .returned none :=
  ⟨[.ctxDone], { s with pc := .returned none }, by simp, by simp [exec, step, hpc, hc], rfl⟩

theorem main_alone_spawnWaiter (prog : Program) (s : State) (hc : s.cancelled = true)
    (hpc : s.pc = .spawnWaiter) :
    ∃ tr1 s1, (∀ a ∈ tr1, a = Action.main ∨ a = Action.ctxDone) ∧
      exec prog s tr1 = some s1 ∧ s1.pc = .returned none := by
  obtain ⟨tr1, s1, h1, h2, h3⟩ := main_alone_select prog
    { s with gors := s.gors ++ [.waiter .waiting], pc := .select } hc rfl
  refine ⟨.main :: tr1, s1, ?_, ?_, h3⟩
  · intro a ha
    rcases List.mem_cons.mp ha with rfl | ha
    · exact Or.inl rfl
    · exact h1 a ha
  · simp only [exec, step, hpc]
    exact h2

theorem main_alone_spawn (prog : Program) (n : Nat) :
    ∀ (s : State) (j : Nat), s.cancelled = true → s.pc = .spawn j →
      (prog.getD s.phase []).length - j ≤ n →
      ∃ tr1 s1, (∀ a ∈ tr1, a = Action.main ∨ a = Action.ctxDone) ∧
        exec prog s tr1 = some s1 ∧ s1.pc = .returned none := by
  induction n with
  | zero =>
    intro s j hc hpc hn
    have ht : (prog.getD s.phase [])[j]? = none := List.getElem?_eq_none (by omega)
    obtain ⟨tr1, s1, h1, h2, h3⟩ := main_alone_spawnWaiter prog
      { s with pc := .spawnWaiter } hc rfl
    refine ⟨.main :: tr1, s1, ?_, ?_, h3⟩
    · intro a ha
      rcases List.mem_cons.mp ha with rfl | ha
      · exact Or.inl rfl
      · exact h1 a ha
    · simp only [exec, step, hpc, ht]
      exact h2
  | succ n ih =>
    intro s j hc hpc hn
    cases ht : (prog.getD s.phase [])[j]? with
    | none =>
      obtain ⟨tr1, s1, h1, h2, h3⟩ := main_alone_spawnWaiter prog
        { s with pc := .spawnWaiter } hc rfl
      refine ⟨.main :: tr1, s1, ?_, ?_, h3⟩
      · intro a ha
        rcases List.mem_cons.mp ha with rfl | ha
        · exact Or.inl rfl
        · exact h1 a ha
      · simp only [exec, step, hpc, ht]
        exact h2
    | some t =>
      obtain ⟨tr1, s1, h1, h2, h3⟩ := ih
        { s with wg := s.wg + 1, gors := s.gors ++ [.worker t .spawned], pc := .spawn (j + 1) }
        (j + 1) hc rfl (by simp only; omega)
      refine ⟨.main :: tr1, s1, ?_, ?_, h3⟩
      · intro a ha
        rcases List.mem_cons.mp ha with rfl | ha
        · exact Or.inl rfl
        · exact h1 a ha
      · simp only [exec, step, hpc, ht]
        exact h2

/-- What cancellation guarantees, for any program. -/
theorem cancel_returns (prog : Program) : CancelReturns prog := by
  refine ⟨?_, ?_⟩
  · intro tr s he hpc
    have h := inv_reach prog s tr he
    exact ⟨{ s with cancelled := true, pc := .returned none },
      by simp [step, hpc, (h.parked hpc).1], rfl⟩
  intro tr s he hc
  have h := inv_reach prog s tr he
  refine ⟨?_, ?_, ?_⟩
  · intro hpc
    exact ⟨{ s with pc := .returned none }, by simp [step, hpc, hc], rfl⟩
  · intro hnr
    cases hpc : s.pc with
    | spawn j => exact main_alone_spawn prog _ s j hc hpc (le_refl _)
    | spawnWaiter => exact main_alone_spawnWaiter prog s hc hpc
    | select => exact main_alone_select prog s hc hpc
    | parked =>
      rw [(h.parked hpc).1] at hc
      cases hc
    | returned r => exact absurd hpc (hnr r)
  · intro r hr
    rcases h.ret r hr with ⟨_, g, hg, hrep, hres⟩ | ⟨h1, _⟩ | ⟨h1, _⟩
    · obtain ⟨t, st, rfl, hst⟩ := reported_worker g hrep
      exact Or.inr ⟨t, st, hg, hst, hres⟩
    · exact Or.inl h1
    · exact Or.inl h1

/-- C9 as stated fails: the workflow is cancelled while `main` is still in the
first loop and the goroutine for instance `a` has failed and is blocked in
`e <- err`; the select then receives that error and `run` returns it, not
`nil`. -/
theorem run_cancelled_returns_error :
    (exec (DeleteResources.run ⟨["a"], ["d1"], []⟩ failingWorkflow) State.init
      [.main, .go 0, .go 0, .go 0, .cancel]).map (fun s => (s.cancelled, s.pc, s.gors)) =
      some (true, .spawn 1,
        [.worker ⟨.deleteInstance "a-wf-x1", some "not found"⟩ (.sending 0 "not found")]) ∧
    (exec (DeleteResources.run ⟨["a"], ["d1"], []⟩ failingWorkflow) State.init
      [.main, .go 0, .go 0, .go 0, .cancel, .main, .main, .recv 0]).map
        (fun s => (s.cancelled, s.pc)) = some (true, .returned (some "not found")) :=
  ⟨by decide, by decide⟩

/-- C9, amended: in `DeleteResources.run` and in `WaitForInstancesStopped.run`
alike, a cancellation that arrives while `run` is blocked in a select makes it
return `nil`; once the workflow is cancelled, the `w.Ctx.Done()` case can be
taken when `run` arrives at a select, whatever the state of the pending
goroutines, and makes `run` return `nil`, and `run` can get there by its own
steps alone; `run` returns something else only when the select instead receives
the error of a goroutine that had already failed, and then returns that
error. -/
theorem run_cancelled (d : DeleteResources) (sw : WaitForInstancesStopped) (w : Workflow) :
    CancelReturns (d.run w) ∧ CancelReturns (sw.run w) :=
  ⟨cancel_returns _, cancel_returns _⟩

theorem goAll_map {β : Type} (mk : Nat → String → Task) (F : Task → β) (f : String → β)
    (hf : ∀ k x, F (mk k x) = f x) (k : Nat) (l : List String) :
    (goAll mk k l).map F = l.map f := by
  induction l generalizing k with
  | nil => rfl
  | cons x xs ih => simp [goAll, hf, ih]

theorem run_phase0 (d : DeleteResources) (w : Workflow) (t : Task)
    (h : t ∈ (d.run w).getD 0 []) : t.call.isPhase1 = true := by
  simp only [DeleteResources.run, List.getD_cons_zero, List.mem_append, mem_goAll] at h
  rcases h with ⟨j, x, _, rfl⟩ | ⟨j, x, _, rfl⟩ <;> rfl

theorem run_phase_succ (d : DeleteResources) (w : Workflow) (k : Nat) (t : Task)
    (h : t ∈ (d.run w).getD (k + 1) []) : ∃ n, t.call = .deleteDisk n := by
  cases k with
  | zero =>
    simp only [DeleteResources.run, List.getD_cons_succ, List.getD_cons_zero, mem_goAll] at h
    obtain ⟨j, x, _, rfl⟩ := h
    exact ⟨_, rfl⟩
  | succ n => simp [DeleteResources.run] at h

theorem invoked_worker (g : Goroutine) (c : Call) (h : g.invoked c = true) :
    ∃ t st, g = .worker t st ∧ t.call = c := by
  cases g with
  | waiter st => cases h
  | worker t st =>
    cases st <;> simp only [Goroutine.invoked, decide_eq_true_eq] at h <;>
      first
        | exact ⟨t, _, rfl, h⟩
        | cases h

theorem hasReturned_worker (g : Goroutine) (c : Call) (r : Option String)
    (h : g.hasReturned c r = true) :
    ∃ t st, g = .worker t st ∧ t.call = c ∧ t.result = r := by
  cases g with
  | waiter st => cases h
  | worker t st =>
    cases st <;> simp only [Goroutine.hasReturned, decide_eq_true_eq] at h <;>
      first
        | exact ⟨t, _, rfl, h.1, h.2⟩
        | cases h

/-- In the first phase of `DeleteResources.run` no disk delete has been
invoked. -/
theorem no_disk_invoked (d : DeleteResources) (w : Workflow) (s : State)
    (h : Inv (d.run w) s) (hph : s.phase = 0) :
    ∀ n, Event.invoke (.deleteDisk n) ∉ s.log := by
  intro n hmem
  have hpos := List.count_pos_iff.mpr hmem
  rw [h.logI] at hpos
  obtain ⟨g, hg, hinv⟩ := List.countP_pos_iff.mp hpos
  obtain ⟨t, st, rfl, hcall⟩ := invoked_worker g _ hinv
  obtain ⟨k, hk, ht⟩ := worker_task_mem _ s h t st hg
  have hk0 : k = 0 := by omega
  subst hk0
  have := run_phase0 d w t ht
  rw [hcall] at this
  cases this

/-- If a call of the first phase of `DeleteResources.run` returns an error,
`main` never leaves the first phase. -/
theorem phase_zero_of_error (d : DeleteResources) (w : Workflow) (s : State)
    (h : Inv (d.run w) s) (t : Task) (ht : t ∈ (d.run w).getD 0 [])
    (hr : t.result ≠ none) : s.phase = 0 := by
  by_contra hne
  exact hr (old_results _ s h 0 t (by omega) ht)

theorem returned_stable (prog : Program) (s s1 : State) (r : Option String)
    (hs : Step prog s s1) (hpc : s.pc = .returned r) :
    s1.pc = .returned r ∧ s1.phase = s.phase := by
  cases hs with
  | spawn j t hpc1 ht => rw [hpc] at hpc1; cases hpc1
  | loopExit j hpc1 ht => rw [hpc] at hpc1; cases hpc1
  | spawnWaiter hpc1 => rw [hpc] at hpc1; cases hpc1
  | park hpc1 hno hc => rw [hpc] at hpc1; cases hpc1
  | invoke i t hg => exact ⟨hpc, rfl⟩
  | ret i t hg => exact ⟨hpc, rfl⟩
  | finishOk i t hg hr => exact ⟨hpc, rfl⟩
  | beginSend i t err hg hr hpc1 => exact ⟨hpc, rfl⟩
  | handErr i t err hg hr hpc1 => rw [hpc] at hpc1; cases hpc1
  | finishSent i t hg => exact ⟨hpc, rfl⟩
  | wake i hg hwg => exact ⟨hpc, rfl⟩
  | waiterSend i hg hpc1 => exact ⟨hpc, rfl⟩
  | handNilNext i hg hpc1 hlt => rw [hpc] at hpc1; cases hpc1
  | handNilLast i hg hpc1 hlt => rw [hpc] at hpc1; cases hpc1
  | recvErr i t err hpc1 hg => rw [hpc] at hpc1; cases hpc1
  | recvNilNext i hpc1 hg hlt => rw [hpc] at hpc1; cases hpc1
  | recvNilLast i hpc1 hg hlt => rw [hpc] at hpc1; cases hpc1
  | ctxDone hpc1 hc => rw [hpc] at hpc1; cases hpc1
  | cancel hc hpc1 => exact ⟨hpc, rfl⟩
  | cancelParked hc hpc1 => rw [hpc] at hpc1; cases hpc1

theorem returned_stable_exec (prog : Program) (s s1 : State) (r : Option String)
    (tr : List Action) (he : exec prog s tr = some s1) (hpc : s.pc = .returned r) :
    s1.pc = .returned r ∧ s1.phase = s.phase := by
  induction tr generalizing s with
  | nil =>
    simp only [exec, Option.some.injEq] at he
    subst he
    exact ⟨hpc, rfl⟩
  | cons a as ih =>
    simp only [exec] at he
    split at he
    · cases he
    · rename_i s2 hstep
      have h2 := returned_stable prog s s2 r (step_sound prog s s2 a hstep) hpc
      have h3 := ih s2 he h2.1
      exact ⟨h3.1, h3.2.trans h2.2⟩

/-- C7 as stated fails: the only instance delete fails and its goroutine
blocks in `e <- err` while `main` is still starting goroutines; the workflow is
cancelled; when `main` arrives at the select both cases can proceed, the
`w.Ctx.Done()` case is taken, and `run` returns `nil`, not the error. -/
theorem run_failure_then_cancel :
    (exec (DeleteResources.run ⟨["a"], ["d1"], []⟩ failingWorkflow) State.init
      [.main, .go 0, .go 0, .go 0, .cancel, .main, .main, .ctxDone]).map
        (fun s => (s.pc, s.log)) =
      some (.returned none,
        [.invoke (.deleteInstance "a-wf-x1"),
          .ret (.deleteInstance "a-wf-x1") (some "not found")]) := by
  decide

/-- C7, amended: when exactly one instance delete returns an error and every
other instance and image delete succeeds, no execution of `run` ever invokes
`deleteDisk`; a returned value is that error, unchanged, or `nil` with the
workflow cancelled; and in the executions without cancellation `run` does
return (they are bounded and can always be continued to the return) and
returns that error. -/
theorem run_one_instance_fails (d : DeleteResources) (w : Workflow) (k : Nat)
    (i err : String) (hk : d.Instances[k]? = some i)
    (herr : w.deleteInstance k (w.namer i w.Name w.suffix) = some err)
    (hothers : ∀ k1 i1, k1 ≠ k → d.Instances[k1]? = some i1 →
      w.deleteInstance k1 (w.namer i1 w.Name w.suffix) = none)
    (himg : ∀ k1 i1, d.Images[k1]? = some i1 → w.deleteImage k1 i1 = none) :
    ∀ tr s, exec (d.run w) State.init tr = some s →
      (∀ n, Event.invoke (.deleteDisk n) ∉ s.log) ∧
      (∀ r, s.pc = .returned r → r = some err ∨ (r = none ∧ s.cancelled = true)) ∧
      (Action.cancel ∉ tr →
        tr.length ≤ State.init.todo (d.run w) ∧
        (∃ tr1 s1, Action.cancel ∉ tr1 ∧ exec (d.run w) s tr1 = some s1 ∧
          s1.pc = .returned (some err)) ∧
        (∀ r, s.pc = .returned r → r = some err)) := by
  -- the failing task is in the first phase, and it is the only one that fails
  have hfail : deleteInstanceTask w k i ∈ (d.run w).getD 0 [] := by
    simp only [DeleteResources.run, List.getD_cons_zero, List.mem_append, mem_goAll]
    exact Or.inl ⟨k, i, hk, by simp⟩
  have hres : ∀ t ∈ (d.run w).getD 0 [], t.result = none ∨ t.result = some err := by
    intro t ht
    simp only [DeleteResources.run, List.getD_cons_zero, List.mem_append, mem_goAll] at ht
    rcases ht with ⟨j, x, hj, rfl⟩ | ⟨j, x, hj, rfl⟩
    · simp only [Nat.zero_add]
      by_cases hjk : j = k
      · subst hjk
        rw [hk] at hj
        cases hj
        exact Or.inr herr
      · exact Or.inl (hothers j x hjk hj)
    · simp only [Nat.zero_add]
      exact Or.inl (himg j x hj)
  have key : ∀ tr s, exec (d.run w) State.init tr = some s →
      s.phase = 0 ∧
      ∀ r, s.pc = .returned r → r = some err ∨ (r = none ∧ s.cancelled = true) := by
    intro tr s he
    have h := inv_reach _ s tr he
    have hph : s.phase = 0 :=
      phase_zero_of_error d w s h _ hfail (by simp [deleteInstanceTask, herr])
    refine ⟨hph, fun r hr => ?_⟩
    rcases h.ret r hr with ⟨hne, g, hg, hrep, hgr⟩ | hcan | ⟨_, hlast, _⟩
    · left
      obtain ⟨t, st, rfl, _⟩ := reported_worker g hrep
      obtain ⟨j, hj, ht⟩ := worker_task_mem _ s h t st hg
      have hj0 : j = 0 := by omega
      subst hj0
      simp only [Goroutine.result] at hgr
      rcases hres t ht with h0 | h1
      · rw [← hgr, h0] at hne
        exact absurd rfl hne
      · rw [← hgr, h1]
    · exact Or.inr hcan
    · rw [hph] at hlast
      exact absurd (by simp [DeleteResources.run]) hlast
  intro tr s he
  have h := inv_reach _ s tr he
  refine ⟨no_disk_invoked d w s h (key tr s he).1, (key tr s he).2, fun hc => ?_⟩
  have nocancel : ∀ tr2 s2, exec (d.run w) State.init tr2 = some s2 → Action.cancel ∉ tr2 →
      ∀ r, s2.pc = .returned r → r = some err := by
    intro tr2 s2 he2 hc2 r hr
    rcases (key tr2 s2 he2).2 r hr with h1 | ⟨_, h2⟩
    · exact h1
    · rw [exec_cancelled _ _ s2 tr2 he2 hc2] at h2
      cases h2
  refine ⟨?_, ?_, nocancel tr s he hc⟩
  · have := exec_length _ _ s tr he
    omega
  · obtain ⟨tr1, s1, h1, _, h3, r, hr⟩ :=
      exists_return _ (s.todo (d.run w)) s h (exec_cancelled _ _ s tr he hc) (le_refl _)
    have he2 : exec (d.run w) State.init (tr ++ tr1) = some s1 := by
      rw [exec_append, he]; exact h3
    have hc2 : Action.cancel ∉ tr ++ tr1 := by
      simp only [List.mem_append, not_or]; exact ⟨hc, h1⟩
    have := nocancel _ s1 he2 hc2 r hr
    subst this
    exact ⟨tr1, s1, h1, h3, hr⟩

theorem run_one_instance_fails_witness :
    [Action.main, .go 0, .go 0, .go 0, .main, .main].length ≤
      State.init.todo (DeleteResources.run ⟨["a"], ["d1"], []⟩ failingWorkflow) ∧
    ∃ tr1 s1, Action.cancel ∉ tr1 ∧
      exec (DeleteResources.run ⟨["a"], ["d1"], []⟩ failingWorkflow)
        { phase := 0, pc := .select, wg := 1,
          gors := [.worker ⟨.deleteInstance "a-wf-x1", some "not found"⟩
            (.sending 0 "not found"), .waiter .waiting],
          cancelled := false,
          log := [.invoke (.deleteInstance "a-wf-x1"),
            .ret (.deleteInstance "a-wf-x1") (some "not found")] } tr1 = some s1 ∧
      s1.pc = .returned (some "not found") :=
  have h := (run_one_instance_fails ⟨["a"], ["d1"], []⟩ failingWorkflow 0 "a" "not found"
    (by decide) (by decide) (by intro k1 i1 h1 h2; cases k1 <;> simp_all)
    (by intro k1 i1 h; simp at h)
    [.main, .go 0, .go 0, .go 0, .main, .main]
    { phase := 0, pc := .select, wg := 1,
      gors := [.worker ⟨.deleteInstance "a-wf-x1", some "not found"⟩
        (.sending 0 "not found"), .waiter .waiting],
      cancelled := false,
      log := [.invoke (.deleteInstance "a-wf-x1"),
        .ret (.deleteInstance "a-wf-x1") (some "not found")] }
    (by decide)).2.2 (by decide)
  ⟨h.1, h.2.1⟩

theorem cur_mem (prog : Program) (phase : Nat) (pc : Pc) (t : Task)
    (h : some t ∈ curShape prog phase pc) : t ∈ prog.getD phase [] := by
  cases pc with
  | spawn j =>
    simp only [curShape, List.mem_map, Option.some.injEq, exists_eq_right] at h
    exact List.mem_of_mem_take h
  | spawnWaiter => simpa [curShape] using h
  | select => simpa [curShape] using h
  | parked => simpa [curShape] using h
  | returned r => simpa [curShape] using h

/-- A loop goroutine that is not among those of the earlier phases was started
for a task of the current phase. -/
theorem cur_worker (prog : Program) (s : State) (h : Inv prog s) (i : Nat) (t : Task)
    (st : WorkerSt) (hg : s.gors[i]? = some (.worker t st))
    (hi : ¬ i < (oldShape prog s.phase).length) : t ∈ prog.getD s.phase [] := by
  have hk : (s.gors.map Goroutine.kind)[i]? = some (some t) := by
    rw [List.getElem?_map, hg]; rfl
  rw [h.shape, List.getElem?_append_right (by omega)] at hk
  exact cur_mem prog s.phase s.pc t (mem_of_getElem? _ _ _ hk)

theorem countP_hasReturned (l : List Goroutine) (c : Call) (r : Option String)
    (h : ∀ g ∈ l, ∀ t st, g = .worker t st → t.call = c → g.quiet = true) :
    l.countP (Goroutine.hasReturned c r) =
      (l.filterMap Goroutine.kind).countP (fun t => decide (t.call = c ∧ t.result = r)) := by
  induction l with
  | nil => rfl
  | cons g gs ih =>
    have ih2 := ih (fun x hx => h x (List.mem_cons_of_mem _ hx))
    cases g with
    | waiter st =>
      simp only [List.countP_cons, List.filterMap_cons, Goroutine.kind,
        Goroutine.hasReturned, ih2]
      simp
    | worker t st =>
      simp only [List.countP_cons, List.filterMap_cons, Goroutine.kind, ih2]
      congr 1
      by_cases hc : t.call = c
      · have hq := h _ (List.mem_cons_self _ _) t st rfl hc
        cases st <;> simp only [Goroutine.quiet] at hq <;> try cases hq
        simp only [Goroutine.hasReturned]
      · cases st <;> simp [Goroutine.hasReturned, hc]

theorem count_ret_map (l : List Task) (c : Call) (r : Option String)
    (h : ∀ t ∈ l, t.result = none) :
    (l.map fun t => Event.ret t.call none).count (.ret c r) =
      l.countP (fun t => decide (t.call = c ∧ t.result = r)) := by
  induction l with
  | nil => rfl
  | cons t ts ih =>
    have ht := h t (List.mem_cons_self _ _)
    simp only [List.map_cons, List.count_cons, List.countP_cons,
      ih (fun x hx => h x (List.mem_cons_of_mem _ hx)), ht]
    congr 1
    by_cases hc : t.call = c <;> by_cases hr : none = r <;> simp [hc, hr]

theorem phase1Returns_eq (d : DeleteResources) (w : Workflow) :
    ((d.run w).getD 0 []).map (fun t => Event.ret t.call none) = d.phase1Returns w := by
  simp only [DeleteResources.run, List.getD_cons_zero, List.map_append,
    DeleteResources.phase1Returns]
  rw [goAll_map (deleteInstanceTask w) (fun t => Event.ret t.call none)
      (fun i => Event.ret (.deleteInstance (w.namer i w.Name w.suffix)) none)
      (fun _ _ => rfl),
    goAll_map (deleteImageTask w) (fun t => Event.ret t.call none)
      (fun i => Event.ret (.deleteImage i) none) (fun _ _ => rfl)]

/-- Once `main` is past the first phase of `DeleteResources.run`, the log has
exactly one successful return for every call of the first phase. -/
theorem good_log (d : DeleteResources) (w : Workflow) (s : State) (h : Inv (d.run w) s)
    (hph : 1 ≤ s.phase) :
    (s.log.filter Event.isPhase1Ret).Perm (d.phase1Returns w) := by
  have hph1 : s.phase = 1 := by
    rcases h.bound with hb | hb
    · simp only [DeleteResources.run, List.length_cons, List.length_nil] at hb
      omega
    · omega
  have hnone : ∀ t ∈ (d.run w).getD 0 [], t.result = none :=
    fun t ht => old_results _ s h 0 t (by omega) ht
  refine List.perm_iff_count.mpr (fun ev => ?_)
  by_cases hev : ev.isPhase1Ret = true
  · rw [List.count_filter hev]
    cases ev with
    | invoke c => cases hev
    | ret c r =>
      simp only [Event.isPhase1Ret] at hev
      have hquiet : ∀ g ∈ s.gors, ∀ t st, g = .worker t st → t.call = c → g.quiet = true := by
        intro g hg t st hgt hc
        subst hgt
        obtain ⟨i, hi⟩ := List.mem_iff_getElem?.mp hg
        by_cases hold : i < (oldShape (d.run w) s.phase).length
        · exact h.old i _ hi hold
        · have hcur := cur_worker _ s h i t st hi hold
          rw [hph1] at hcur
          obtain ⟨n, hn⟩ := run_phase_succ d w 0 t hcur
          rw [hc] at hn
          rw [hn] at hev
          cases hev
      rw [h.logR, countP_hasReturned _ _ _ hquiet]
      have htasks : s.gors.filterMap Goroutine.kind =
          (d.run w).getD 0 [] ++ (curShape (d.run w) s.phase s.pc).filterMap id := by
        have h1 : s.gors.filterMap Goroutine.kind =
            (s.gors.map Goroutine.kind).filterMap id := by
          rw [List.filterMap_map]; rfl
        rw [h1, h.shape, List.filterMap_append, oldShape, filterMap_id_oldShape, hph1]
        simp [DeleteResources.run]
      rw [htasks, List.countP_append, ← phase1Returns_eq, count_ret_map _ _ _ hnone]
      have hz : ((curShape (d.run w) s.phase s.pc).filterMap id).countP
          (fun t => decide (t.call = c ∧ t.result = r)) = 0 := by
        rw [List.countP_eq_zero]
        intro t ht
        simp only [List.mem_filterMap, id] at ht
        obtain ⟨o, ho, rfl⟩ := ht
        have hcur := cur_mem _ _ _ t ho
        rw [hph1] at hcur
        obtain ⟨n, hn⟩ := run_phase_succ d w 0 t hcur
        simp only [decide_eq_true_eq, not_and]
        intro hc
        rw [hc] at hn
        rw [hn] at hev
        cases hev
      omega
  · have h1 : ev ∉ s.log.filter Event.isPhase1Ret := by
      intro hm
      exact hev (List.mem_filter.mp hm).2
    have h2 : ev ∉ d.phase1Returns w := by
      intro hm
      apply hev
      simp only [DeleteResources.phase1Returns, List.mem_append, List.mem_map] at hm
      rcases hm with ⟨x, _, rfl⟩ | ⟨x, _, rfl⟩ <;> rfl
    rw [List.count_eq_zero_of_not_mem h1, List.count_eq_zero_of_not_mem h2]

theorem snoc_decomp {α : Type} (l1 l2 log : List α) (x ev : α)
    (h : log ++ [ev] = l1 ++ x :: l2) :
    (l2 = [] ∧ l1 = log ∧ x = ev) ∨ (∃ l3, l2 = l3 ++ [ev] ∧ log = l1 ++ x :: l3) := by
  rcases List.eq_nil_or_concat' l2 with rfl | ⟨l3, b, rfl⟩
  · left
    have := List.append_inj' h (by simp)
    simp only [List.cons.injEq, and_true] at this
    exact ⟨rfl, this.1.symm, this.2.symm⟩
  · right
    have h2 : log ++ [ev] = (l1 ++ x :: l3) ++ [b] := by
      rw [h]; simp
    have := List.append_inj' h2 (by simp)
    simp only [List.cons.injEq, and_true] at this
    exact ⟨l3, by rw [this.2], this.1⟩

theorem logOrdered_snoc (d : DeleteResources) (w : Workflow) (log : List Event) (ev : Event)
    (h : LogOrdered d w log)
    (hev : ∀ n, ev = .invoke (.deleteDisk n) →
      (log.filter Event.isPhase1Ret).Perm (d.phase1Returns w)) :
    LogOrdered d w (log ++ [ev]) := by
  intro l1 n l2 hl
  rcases snoc_decomp l1 l2 log _ ev hl with ⟨_, rfl, hx⟩ | ⟨l3, _, hlog⟩
  · exact hev n hx.symm
  · exact h l1 n l3 hlog

theorem logOrdered_step (d : DeleteResources) (w : Workflow) (s s1 : State)
    (h : Inv (d.run w) s) (hl : LogOrdered d w s.log) (hs : Step (d.run w) s s1) :
    LogOrdered d w s1.log := by
  cases hs with
  | invoke i t hg =>
    refine logOrdered_snoc d w s.log _ hl (fun n hn => ?_)
    simp only [Event.invoke.injEq] at hn
    refine good_log d w s h ?_
    obtain ⟨k, hk, ht⟩ := worker_task_mem _ s h t _ (mem_of_getElem? _ _ _ hg)
    cases k with
    | zero =>
      have := run_phase0 d w t ht
      rw [hn] at this
      cases this
    | succ m => omega
  | ret i t hg =>
    exact logOrdered_snoc d w s.log _ hl (fun n hn => by cases hn)
  | spawn j t hpc ht => exact hl
  | loopExit j hpc ht => exact hl
  | spawnWaiter hpc => exact hl
  | park hpc hno hc => exact hl
  | finishOk i t hg hr => exact hl
  | beginSend i t err hg hr hpc => exact hl
  | handErr i t err hg hr hpc => exact hl
  | finishSent i t hg => exact hl
  | wake i hg hwg => exact hl
  | waiterSend i hg hpc => exact hl
  | handNilNext i hg hpc hlt => exact hl
  | handNilLast i hg hpc hlt => exact hl
  | recvErr i t err hpc hg => exact hl
  | recvNilNext i hpc hg hlt => exact hl
  | recvNilLast i hpc hg hlt => exact hl
  | ctxDone hpc hc => exact hl
  | cancel hc hpc => exact hl
  | cancelParked hc hpc => exact hl

theorem logOrdered_exec (d : DeleteResources) (w : Workflow) (s s1 : State)
    (tr : List Action) (h : Inv (d.run w) s) (hl : LogOrdered d w s.log)
    (he : exec (d.run w) s tr = some s1) : LogOrdered d w s1.log := by
  induction tr generalizing s with
  | nil =>
    simp only [exec, Option.some.injEq] at he
    exact he ▸ hl
  | cons a as ih =>
    simp only [exec] at he
    split at he
    · cases he
    · rename_i s2 hstep
      have hs := step_sound _ s s2 a hstep
      exact ih s2 (inv_step _ s s2 h hs) (logOrdered_step d w s s2 h hl hs) he

/-- C8: in every execution of `DeleteResources.run`, with or without errors or
cancellation, every `deleteDisk` invocation in the log is preceded by exactly
one successful return for each entry of `Instances` and of `Images`; a log that
holds a failed return of an instance or image delete holds no `deleteDisk`
invocation; and once `main` has returned in the first phase (on an error or on
cancellation), no continuation of the execution ever invokes `deleteDisk`. -/
theorem run_disks_after_instances (d : DeleteResources) (w : Workflow) :
    ∀ tr s, exec (d.run w) State.init tr = some s →
      LogOrdered d w s.log ∧
      ((∃ c e, c.isPhase1 = true ∧ Event.ret c (some e) ∈ s.log) →
        ∀ n, Event.invoke (.deleteDisk n) ∉ s.log) ∧
      (s.phase = 0 → (∃ r, s.pc = .returned r) →
        ∀ tr2 s2, exec (d.run w) s tr2 = some s2 →
          ∀ n, Event.invoke (.deleteDisk n) ∉ s2.log) := by
  intro tr s he
  have h := inv_reach _ s tr he
  refine ⟨?_, ?_, ?_⟩
  · refine logOrdered_exec d w _ s tr (inv_init _) ?_ he
    intro l1 n l2 hl
    simp [State.init] at hl
  · rintro ⟨c, e, hc, hmem⟩
    have hpos := List.count_pos_iff.mpr hmem
    rw [h.logR] at hpos
    obtain ⟨g, hg, hret⟩ := List.countP_pos_iff.mp hpos
    obtain ⟨t, st, rfl, hcall, hres⟩ := hasReturned_worker g _ _ hret
    obtain ⟨k, _, ht⟩ := worker_task_mem _ s h t st hg
    cases k with
    | succ m =>
      obtain ⟨n, hn⟩ := run_phase_succ d w m t ht
      rw [hcall] at hn
      rw [hn] at hc
      cases hc
    | zero =>
      exact no_disk_invoked d w s h
        (phase_zero_of_error d w s h t ht (by rw [hres]; simp))
  · rintro hph ⟨r, hr⟩ tr2 s2 he2
    have h2 := inv_exec _ s s2 tr2 h he2
    have hst := returned_stable_exec _ s s2 r tr2 he2 hr
    exact no_disk_invoked d w s2 h2 (hst.2.trans hph)

theorem run_disks_after_instances_witness :
    LogOrdered ⟨["a"], ["d1"], []⟩ sampleWorkflow
      [.invoke (.deleteInstance "a-wf-x1"), .ret (.deleteInstance "a-wf-x1") none,
        .invoke (.deleteDisk "d1-wf-x1"), .ret (.deleteDisk "d1-wf-x1") none] :=
  (run_disks_after_instances ⟨["a"], ["d1"], []⟩ sampleWorkflow
    [.main, .go 0, .go 0, .go 0, .main, .main, .go 1, .go 1, .recv 1,
      .main, .main, .main, .go 2, .go 2, .go 2, .go 3, .go 3, .recv 3]
    { phase := 1, pc := .returned none, wg := 0,
      gors := [.worker ⟨.deleteInstance "a-wf-x1", none⟩ .finished, .waiter .done,
        .worker ⟨.deleteDisk "d1-wf-x1", none⟩ .finished, .waiter .done],
      cancelled := false,
      log := [.invoke (.deleteInstance "a-wf-x1"), .ret (.deleteInstance "a-wf-x1") none,
        .invoke (.deleteDisk "d1-wf-x1"), .ret (.deleteDisk "d1-wf-x1") none] }
    (by decide)).1

theorem run_cancelled_witness :
    ∃ s1, step (DeleteResources.run ⟨["a"], ["d1"], []⟩ failingWorkflow)
        { phase := 0, pc := .select, wg := 1,
          gors := [.worker ⟨.deleteInstance "a-wf-x1", some "not found"⟩
            (.sending 0 "not found"), .waiter .waiting],
          cancelled := true,
          log := [.invoke (.deleteInstance "a-wf-x1"),
            .ret (.deleteInstance "a-wf-x1") (some "not found")] } .ctxDone = some s1 ∧
      s1.pc = .returned none :=
  ((run_cancelled ⟨["a"], ["d1"], []⟩ [] failingWorkflow).1.2
    [.main, .go 0, .go 0, .go 0, .cancel, .main, .main]
    { phase := 0, pc := .select, wg := 1,
      gors := [.worker ⟨.deleteInstance "a-wf-x1", some "not found"⟩
        (.sending 0 "not found"), .waiter .waiting],
      cancelled := true,
      log := [.invoke (.deleteInstance "a-wf-x1"),
        .ret (.deleteInstance "a-wf-x1") (some "not found")] }
    (by decide) rfl).1 rfl

end Daisy

